import Mathlib

/-!
Shallow embedding of `batchrunner.py` (BatchRunner - parallel command executor
with dependency management) and proofs about it.

Conventions:
* The command map `self.commands` (a Python dict keyed by `Command.name`,
  insertion ordered, unique keys) is modelled as a `List Command`; key lookup
  is `lookup` below.
* Durations (`timeout`, `retry_delay`, measured wall-clock spans) are modelled
  in integral time units.
* Each `subprocess.run` call is modelled by an oracle `Nat → AttemptOutcome`
  giving the outcome of the i-th attempt.
* Unbounded recursions of the source (which terminate for reasons proved
  below) are modelled with an explicit fuel parameter returning `Option`;
  the fuel bounds are shown sufficient, so `none` never occurs on the inputs
  the source can reach.
* Threads launched for the commands of one group are modelled as running
  sequentially in group order (the shared result list and failure flag are
  threaded through); the claims below depend only on counts and membership,
  which are ordering independent.
-/

namespace BatchRunner

/-- Model of the `Command` class: one command specification.  Field defaults
mirror `Command.__init__`. -/
structure Command where
  name : String
  command : String
  depends_on : List String := []
  working_dir : Option String := none
  env : List (String × String) := []
  timeout : Option Nat := none
  retry_count : Nat := 0
  retry_delay : Nat := 1
  failure_strategy : String := "abort"
  deriving Repr, DecidableEq

/-- Model of the `CommandResult` class.  The `timestamp` field (a wall-clock
reading taken at construction) is not modelled. -/
structure CommandResult where
  command : String
  success : Bool
  exit_code : Int
  duration : Nat
  stdout : String := ""
  stderr : String := ""
  error : Option String := none
  deriving Repr, DecidableEq

/-- Outcome of one `subprocess.run` call inside `_execute_command`: the
process completed with an exit code and captured output, or
`subprocess.TimeoutExpired` was raised, or another exception was raised
(spawn failure).  `elapsed` is the wall-clock span of the attempt,
`time.time() - start_time`. -/
inductive AttemptOutcome where
  | completed (exitCode : Int) (stdout stderr : String) (elapsed : Nat)
  | timeoutExpired (elapsed : Nat)
  | spawnError (message : String) (elapsed : Nat)
  deriving Repr, DecidableEq

/-- Rendering of `cmd.timeout` inside the f-string `"Timeout after {cmd.timeout}s"`. -/
def timeoutStr : Option Nat → String
  | some t => toString t
  | none => "None"

/-- The retry loop of `_execute_command` (`while attempts < max_attempts`).
`remaining` is `max_attempts - attempts` (attempts still allowed), `attempts`
those already made, `clock` the wall-clock time consumed so far across
attempts and retry sleeps.  Besides the `CommandResult` of the source, the
model returns the number of attempts made and the total consumed wall-clock
time, ghost data used to state claims about retries and elapsed time. -/
def execLoop (cmd : Command) (oracle : Nat → AttemptOutcome) :
    Nat → Nat → Nat → CommandResult × Nat × Nat
  | 0, attempts, clock =>
      -- the `# Should never reach here` fallthrough after the while loop
      (⟨cmd.command, false, -1, 0, "", "", some "Unknown error"⟩, attempts, clock)
  | remaining + 1, attempts, clock =>
      let attempt := attempts + 1
      match oracle attempt with
      | .completed rc out err dur =>
          -- duration is measured from `start_time`, reset at this attempt
          let result : CommandResult := ⟨cmd.command, rc == 0, rc, dur, out, err, none⟩
          if rc == 0 || remaining == 0 then (result, attempt, clock + dur)
          else
            -- retry after sleeping `retry_delay`
            execLoop cmd oracle remaining attempt (clock + dur + cmd.retry_delay)
      | .timeoutExpired dur =>
          -- `except subprocess.TimeoutExpired`: returns at once
          (⟨cmd.command, false, -1, dur, "", "",
            some ("Timeout after " ++ timeoutStr cmd.timeout ++ "s")⟩,
           attempt, clock + dur)
      | .spawnError msg dur =>
          -- `except Exception as e`: returns at once
          (⟨cmd.command, false, -1, dur, "", "", some msg⟩, attempt, clock + dur)

/-- Model of `BatchRunner._execute_command`. -/
def execute_command (dryRun : Bool) (cmd : Command)
    (oracle : Nat → AttemptOutcome) : CommandResult × Nat × Nat :=
  if dryRun then
    (⟨cmd.command, true, 0, 0, "[DRY RUN - not executed]", "", none⟩, 0, 0)
  else
    execLoop cmd oracle (cmd.retry_count + 1) 0 0

/-- Wall-clock span of one attempt outcome. -/
def AttemptOutcome.elapsed : AttemptOutcome → Nat
  | .completed _ _ _ d => d
  | .timeoutExpired d => d
  | .spawnError _ d => d

/-- Key lookup `self.commands[name]` in the insertion-ordered command map. -/
def lookup (cmds : List Command) (n : String) : Option Command :=
  cmds.find? (fun c => c.name == n)

/-- Membership test `name in self.commands`. -/
def containsName (cmds : List Command) (n : String) : Bool :=
  (lookup cmds n).isSome

/-- Validation error entries appended by `validate_dependencies`; the
constructors carry the data interpolated into the Python f-strings
(missingDep: "Command {cmdName} depends on {dep} which does not exist";
circularDep: "Circular dependency detected involving {name} and {dep}"). -/
inductive ValidationError where
  | missingDep (cmdName dep : String)
  | circularDep (name dep : String)
  deriving Repr, DecidableEq

/-- First phase of `validate_dependencies`: one error per dependency entry
that is not a key of the command map, in iteration order. -/
def danglingErrors (cmds : List Command) : List ValidationError :=
  cmds.flatMap (fun c =>
    (c.depends_on.filter (fun d => !containsName cmds d)).map
      (fun d => ValidationError.missingDep c.name d))

mutual

/-- Model of the inner `has_cycle(name, visited, stack)` of
`validate_dependencies`.  `visited` is the shared visited set, `stack` the
current recursion path (innermost first); both are threaded as lists.  On a
`False` return the Python code has restored `stack` to its input value, so
only `visited` and `errors` are returned.  `fuel` bounds the recursion depth
(each recursive call is on an unvisited name and immediately marks it
visited, so `validateFuel` below is always enough). -/
def hasCycle (cmds : List Command) : Nat → String → List String → List String →
    List ValidationError → Option (Bool × List String × List ValidationError)
  | 0, _, _, _, _ => none
  | fuel + 1, name, stack, visited, errors =>
      let visited2 := name :: visited
      let stack2 := name :: stack
      match lookup cmds name with
      | some cmd => visitDeps cmds fuel name stack2 cmd.depends_on visited2 errors
      | none => some (false, visited2, errors)

/-- The `for dep in self.commands[name].depends_on` loop body of `has_cycle`:
an unvisited dependency is recursed into; a visited one that is on the stack
reports a circular dependency and returns `True` at once. -/
def visitDeps (cmds : List Command) : Nat → String → List String → List String →
    List String → List ValidationError → Option (Bool × List String × List ValidationError)
  | _, _, _, [], visited, errors => some (false, visited, errors)
  | fuel, name, stack, dep :: rest, visited, errors =>
      if dep ∈ visited then
        if dep ∈ stack then
          some (true, visited, errors ++ [ValidationError.circularDep name dep])
        else
          visitDeps cmds fuel name stack rest visited errors
      else
        match hasCycle cmds fuel dep stack visited errors with
        | none => none
        | some (true, visited2, errors2) => some (true, visited2, errors2)
        | some (false, visited2, errors2) => visitDeps cmds fuel name stack rest visited2 errors2

end

/-- The `for cmd_name in self.commands` driver loop of the cycle check; the
boolean result of `has_cycle` is ignored there. -/
def cycleScan (cmds : List Command) (fuel : Nat) :
    List String → List String → List ValidationError →
    Option (List String × List ValidationError)
  | [], visited, errors => some (visited, errors)
  | n :: rest, visited, errors =>
      if n ∈ visited then cycleScan cmds fuel rest visited errors
      else
        match hasCycle cmds fuel n [] visited errors with
        | none => none
        | some (_, visited2, errors2) => cycleScan cmds fuel rest visited2 errors2

/-- Fuel bound for the DFS: every name ever visited is a command name or a
declared dependency, and each recursion level visits a new one. -/
def validateFuel (cmds : List Command) : Nat :=
  cmds.length + (cmds.map (fun c => c.depends_on.length)).sum + 1

/-- Model of `BatchRunner.validate_dependencies`. -/
def validate_dependencies (cmds : List Command) : Bool × List ValidationError :=
  match cycleScan cmds (validateFuel cmds) (cmds.map Command.name) [] (danglingErrors cmds) with
  | some (_, errors) => (errors.isEmpty, errors)
  | none => (false, [])

/-- All names the DFS can ever visit: command names and declared dependencies. -/
def universeNames (cmds : List Command) : List String :=
  cmds.map Command.name ++ cmds.flatMap (fun c => c.depends_on)

/-- Specification-side dependency edge: the command registered under key `a`
declares a dependency on `b`. -/
def depEdge (cmds : List Command) (a b : String) : Prop :=
  ∃ c, lookup cmds a = some c ∧ b ∈ c.depends_on

/-- Specification-side cycle: a nonempty chain of dependency edges from some
name back to itself. -/
def HasDepCycle (cmds : List Command) : Prop :=
  ∃ n p, List.Chain (depEdge cmds) n (p ++ [n])

/-- Specification-side dangling-reference freedom: every declared dependency
is a key of the command map. -/
def NoDangling (cmds : List Command) : Prop :=
  ∀ c ∈ cmds, ∀ d ∈ c.depends_on, containsName cmds d = true

/-- Invariant used to prove the cycle check complete: every visited node is
either on the DFS stack, or finished, with all its dependencies visited, off
the stack, and of strictly smaller rank; all ranks are below the bound. -/
def RankOK (cmds : List Command) (stack visited : List String)
    (r : String → Nat) (B : Nat) : Prop :=
  (∀ z ∈ visited, z ∈ stack ∨
    (∀ d, depEdge cmds z d → d ∈ visited ∧ d ∉ stack ∧ r d < r z)) ∧
  (∀ z, r z < B)

/-- Number of potentially visitable names not visited yet; the DFS recursion
depth is bounded by it. -/
def unvisitedCount (cmds : List Command) (visited : List String) : Nat :=
  ((universeNames cmds).toFinset \ visited.toFinset).card

mutual

/-- Model of the memoized `get_level` of `_get_execution_order`.  The memo
`levels` is the Python dict as an association list, most recent entry first.
A `none` from the inner `lookup` models the `KeyError` the source would raise
on a dangling name; `fuel` bounds the recursion depth, which on a validated
acyclic graph is at most the longest dependency chain (see `levelFuel`). -/
def getLevel (cmds : List Command) : Nat → String → List (String × Nat) →
    Option (Nat × List (String × Nat))
  | 0, _, _ => none
  | fuel + 1, name, levels =>
      match List.lookup name levels with
      | some l => some (l, levels)
      | none =>
          match lookup cmds name with
          | none => none
          | some cmd =>
              if cmd.depends_on.isEmpty then some (0, (name, 0) :: levels)
              else
                match maxLevels cmds fuel cmd.depends_on levels with
                | none => none
                | some (m, levels2) => some (m + 1, (name, m + 1) :: levels2)

/-- Evaluation of `max(get_level(dep) for dep in cmd.depends_on)`, left to
right; the extra base case 0 equals the Python `max` on the nonempty lists
this is applied to, since levels are naturals. -/
def maxLevels (cmds : List Command) : Nat → List String → List (String × Nat) →
    Option (Nat × List (String × Nat))
  | _, [], levels => some (0, levels)
  | fuel, d :: rest, levels =>
      match getLevel cmds fuel d levels with
      | none => none
      | some (l, levels2) =>
          match maxLevels cmds fuel rest levels2 with
          | none => none
          | some (m, levels3) => some (Nat.max l m, levels3)

end

/-- The `for cmd_name in self.commands: get_level(cmd_name)` driver loop. -/
def levelLoop (cmds : List Command) (fuel : Nat) :
    List String → List (String × Nat) → Option (List (String × Nat))
  | [], levels => some levels
  | n :: rest, levels =>
      match getLevel cmds fuel n levels with
      | none => none
      | some (_, levels2) => levelLoop cmds fuel rest levels2

/-- Fuel bound for `get_level`: on an acyclic graph a dependency chain never
repeats a name, so chains are no longer than the command count. -/
def levelFuel (cmds : List Command) : Nat :=
  cmds.length + 1

/-- The completed `levels` dict of `_get_execution_order`. -/
def computeAllLevels (cmds : List Command) : Option (List (String × Nat)) :=
  levelLoop cmds (levelFuel cmds) (cmds.map Command.name) []

/-- One `execution_groups[level].append(cmd_name)` update: append `n` to the
`i`-th group.  Out of range it is a no-op, a case shown unreachable for the
indices `_get_execution_order` produces. -/
def appendAt (n : String) : Nat → List (List String) → List (List String)
  | _, [] => []
  | 0, g :: rest => (g ++ [n]) :: rest
  | i + 1, g :: rest => g :: appendAt n i rest

/-- The `for cmd_name, level in levels.items(): execution_groups[level].append`
loop. -/
def placeInGroups : List (List String) → List (String × Nat) → List (List String)
  | groups, [] => groups
  | groups, (n, l) :: rest => placeInGroups (appendAt n l groups) rest

/-- Memo entry soundness for the level computation: the entry belongs to a
registered command and satisfies the level recurrence with respect to the
memo. -/
def EntryOK (cmds : List Command) (levels : List (String × Nat))
    (p : String × Nat) : Prop :=
  ∃ cmd, lookup cmds p.1 = some cmd ∧
    (cmd.depends_on.isEmpty = true → p.2 = 0) ∧
    (cmd.depends_on.isEmpty = false →
      (∀ d ∈ cmd.depends_on, ∃ ld, List.lookup d levels = some ld) ∧
      p.2 = (cmd.depends_on.map (fun d => (List.lookup d levels).getD 0)).foldl
        Nat.max 0 + 1)

/-- Memo invariant for the level computation: keys are unique and every entry
satisfies the level recurrence. -/
def MemoOK (cmds : List Command) (levels : List (String × Nat)) : Prop :=
  (levels.map Prod.fst).Nodup ∧ ∀ p ∈ levels, EntryOK cmds levels p

/-- Model of `BatchRunner._get_execution_order`.  The memo list is newest
first, so Python dict insertion order is its reverse. -/
def get_execution_order (cmds : List Command) : Option (List (List String)) :=
  match computeAllLevels cmds with
  | none => none
  | some levels =>
      let maxLevel := if levels.isEmpty then 0 else (levels.map Prod.snd).foldl Nat.max 0
      let groups : List (List String) := List.replicate (maxLevel + 1) []
      some (placeInGroups groups levels.reverse)

/-- The thread bodies of `_execute_group`, modelled sequentially in group
order; `execOf` gives the `_execute_command` result for each command name.
The failure flag is set whenever a result is unsuccessful; when
`abortOnFailure` is true a set flag makes commands that have not started yet
skip execution (their results are not collected). -/
def groupLoop (execOf : String → CommandResult) (abortOnFailure : Bool) :
    List String → Bool → List CommandResult → List CommandResult
  | [], _, results => results
  | n :: rest, failedFlag, results =>
      if abortOnFailure && failedFlag then
        groupLoop execOf abortOnFailure rest failedFlag results
      else
        let r := execOf n
        groupLoop execOf abortOnFailure rest (failedFlag || !r.success) (results ++ [r])

/-- Model of `BatchRunner._execute_group`. -/
def execute_group (execOf : String → CommandResult) (group : List String)
    (abortOnFailure : Bool) : Bool × List CommandResult :=
  let results := groupLoop execOf abortOnFailure group false []
  (results.all (fun r => r.success), results)

/-- The summary dictionary built at the end of `BatchRunner.run`.  The
`duration` entry (a wall-clock reading) is not modelled. -/
structure RunSummary where
  success : Bool
  total_commands : Nat
  executed : Nat
  successful : Nat
  failed : Nat
  results : List CommandResult
  deriving Repr, DecidableEq

/-- Result of `BatchRunner.run`: either the validation-failure dictionary
(carrying the full error list) or the execution summary. -/
inductive RunOutcome where
  | validationFailure (errors : List ValidationError)
  | finished (summary : RunSummary)
  deriving Repr, DecidableEq

/-- The `for i, group in enumerate(execution_groups)` loop of `run`, breaking
after a group that did not fully succeed when `abort_on_failure` is set. -/
def runGroups (execOf : String → CommandResult) (abortOnFailure : Bool) :
    List (List String) → List CommandResult → List CommandResult
  | [], acc => acc
  | g :: rest, acc =>
      let gr := execute_group execOf g abortOnFailure
      let acc2 := acc ++ gr.2
      if !gr.1 && abortOnFailure then acc2
      else runGroups execOf abortOnFailure rest acc2

/-- Model of `BatchRunner.run`.  The `get_execution_order` fuel never runs
out after successful validation (proved below); the `none` arm is dead. -/
def run (cmds : List Command) (execOf : String → CommandResult)
    (abortOnFailure : Bool) : RunOutcome :=
  let v := validate_dependencies cmds
  if v.1 then
    match get_execution_order cmds with
    | none => RunOutcome.validationFailure []
    | some groups =>
        let allResults := runGroups execOf abortOnFailure groups []
        let successful := (allResults.filter (fun r => r.success)).length
        RunOutcome.finished
          { success := allResults.length - successful == 0
            total_commands := cmds.length
            executed := allResults.length
            successful := successful
            failed := allResults.length - successful
            results := allResults }
  else RunOutcome.validationFailure v.2

/-! ## Theorems about the executor -/

/-- Helper: when every allowed attempt completes with a nonzero exit code, the
retry loop makes every allowed attempt and ends unsuccessful. -/
theorem execLoop_all_fail (cmd : Command) (oracle : Nat → AttemptOutcome) :
    ∀ remaining attempts clock, 1 ≤ remaining →
      (∀ i, attempts < i → i ≤ attempts + remaining →
        ∃ rc out err d, oracle i = .completed rc out err d ∧ rc ≠ 0) →
      (execLoop cmd oracle remaining attempts clock).1.success = false ∧
      (execLoop cmd oracle remaining attempts clock).2.1 = attempts + remaining := by
  intro remaining
  induction remaining with
  | zero => intro attempts clock h; exfalso; omega
  | succ n ih =>
    intro attempts clock _ hor
    obtain ⟨rc, out, err, d, hoc, hrc⟩ := hor (attempts + 1) (by omega) (by omega)
    have hb : (rc == 0) = false := by simpa using hrc
    rcases Nat.eq_zero_or_pos n with hn | hn
    · subst hn
      simp [execLoop, hoc, hb]
    · have hn0 : (n == 0) = false := by simpa using Nat.pos_iff_ne_zero.mp hn
      have hrec := ih (attempts + 1) (clock + d + cmd.retry_delay) hn
        (fun i h1 h2 => hor i (by omega) (by omega))
      simp only [execLoop, hoc, hb, hn0, Bool.or_self, Bool.or_false, Bool.false_or,
        if_false, Bool.false_eq_true, ite_false]
      exact ⟨hrec.1, by rw [hrec.2]; omega⟩

/-- Helper: a timeout makes the retry loop return at once with the sentinel
exit code and an error naming the timeout duration. -/
theorem execLoop_timeout (cmd : Command) (oracle : Nat → AttemptOutcome)
    (t : Nat) (ht : cmd.timeout = some t) :
    ∀ remaining attempts clock d, 1 ≤ remaining →
      oracle (attempts + 1) = .timeoutExpired d →
      execLoop cmd oracle remaining attempts clock =
        (⟨cmd.command, false, -1, d, "", "",
          some ("Timeout after " ++ toString t ++ "s")⟩, attempts + 1, clock + d) := by
  intro remaining attempts clock d h1 h2
  match remaining, h1 with
  | r + 1, _ => simp [execLoop, h2, timeoutStr, ht]

/-- Helper: the duration recorded in the result is always the elapsed span of
the attempt the loop ended on (the start time is reset every attempt). -/
theorem execLoop_duration_last (cmd : Command) (oracle : Nat → AttemptOutcome) :
    ∀ remaining attempts clock, 1 ≤ remaining →
      (execLoop cmd oracle remaining attempts clock).1.duration =
        (oracle (execLoop cmd oracle remaining attempts clock).2.1).elapsed := by
  intro remaining
  induction remaining with
  | zero => intro attempts clock h; exfalso; omega
  | succ n ih =>
    intro attempts clock _
    cases hoc : oracle (attempts + 1) with
    | completed rc out err d =>
        by_cases hcond : (rc == 0 || n == 0) = true
        · simp [execLoop, hoc, hcond, AttemptOutcome.elapsed]
        · have h1 : 1 ≤ n := by
            rcases Nat.eq_zero_or_pos n with h | h
            · exfalso; subst h; simp at hcond
            · exact h
          simp only [execLoop, hoc, hcond, ite_false, Bool.false_eq_true]
          exact ih (attempts + 1) (clock + d + cmd.retry_delay) h1
    | timeoutExpired d => simp [execLoop, hoc, AttemptOutcome.elapsed]
    | spawnError msg d => simp [execLoop, hoc, AttemptOutcome.elapsed]

/-- C6: a command whose process exits nonzero on every attempt is attempted
exactly `retry_count + 1` times and its result is unsuccessful; a command
whose first attempt exits 0 is attempted exactly once, and its total elapsed
time is just that attempt, with no retry delay added. -/
theorem retry_count_attempts (cmd : Command) (oracle : Nat → AttemptOutcome) :
    ((∀ i, 1 ≤ i → i ≤ cmd.retry_count + 1 →
        ∃ rc out err d, oracle i = .completed rc out err d ∧ rc ≠ 0) →
      (execute_command false cmd oracle).2.1 = cmd.retry_count + 1 ∧
      (execute_command false cmd oracle).1.success = false) ∧
    (∀ out err d, oracle 1 = .completed 0 out err d →
      execute_command false cmd oracle = (⟨cmd.command, true, 0, d, out, err, none⟩, 1, d)) := by
  constructor
  · intro h
    have hmain := execLoop_all_fail cmd oracle (cmd.retry_count + 1) 0 0 (by omega)
      (fun i h1 h2 => h i (by omega) (by omega))
    exact ⟨by simpa [execute_command] using hmain.2, by simpa [execute_command] using hmain.1⟩
  · intro out err d h1
    simp [execute_command, execLoop, h1]

/-- Witness for `retry_count_attempts`: a command with `retry_count = 2` whose
attempts all exit 1 is attempted 3 times unsuccessfully, and a command whose
first attempt exits 0 is attempted once. -/
theorem retry_count_attempts_witness :
    (execute_command false { name := "a", command := "x", retry_count := 2 }
        (fun _ => .completed 1 "" "" 1)).2.1 = 3 ∧
    (execute_command false { name := "a", command := "x", retry_count := 2 }
        (fun _ => .completed 1 "" "" 1)).1.success = false ∧
    execute_command false { name := "b", command := "y" }
        (fun _ => .completed 0 "out" "" 4) = (⟨"y", true, 0, 4, "out", "", none⟩, 1, 4) := by
  refine ⟨?_, ?_, ?_⟩
  · exact ((retry_count_attempts _ _).1 (fun i _ _ => ⟨1, "", "", 1, rfl, by decide⟩)).1
  · exact ((retry_count_attempts _ _).1 (fun i _ _ => ⟨1, "", "", 1, rfl, by decide⟩)).2
  · exact (retry_count_attempts _ _).2 "out" "" 4 rfl

/-- C1 counterexample: with `timeout = 5` and `retry_count = 1`, a first
attempt that times out makes the executor return after a single attempt even
though a second attempt remained: a timeout is not retried, refuting the
claim that the executor retries instead of returning immediately. -/
theorem timeout_retry_counterexample :
    execute_command false { name := "t", command := "x", timeout := some 5, retry_count := 1 }
        (fun _ => .timeoutExpired 2) =
      (⟨"x", false, -1, 2, "", "", some "Timeout after 5s"⟩, 1, 2) ∧
    ({ name := "t", command := "x", timeout := some 5, retry_count := 1 : Command}).retry_count
      + 1 = 2 ∧
    (1 : Nat) ≠ 2 :=
  ⟨rfl, rfl, by decide⟩

/-- C1 amended: when an attempt raises the timeout exception, the executor
records a failed result with exit code -1 and an error detail naming the
timeout duration, but returns that result immediately, without retrying,
even when attempts remain. -/
theorem timeout_returns_immediately (cmd : Command) (oracle : Nat → AttemptOutcome)
    (t : Nat) (ht : cmd.timeout = some t) :
    (∀ remaining attempts clock d, 1 ≤ remaining →
      oracle (attempts + 1) = .timeoutExpired d →
      execLoop cmd oracle remaining attempts clock =
        (⟨cmd.command, false, -1, d, "", "",
          some ("Timeout after " ++ toString t ++ "s")⟩, attempts + 1, clock + d)) ∧
    (∀ d, oracle 1 = .timeoutExpired d →
      execute_command false cmd oracle =
        (⟨cmd.command, false, -1, d, "", "",
          some ("Timeout after " ++ toString t ++ "s")⟩, 1, d)) := by
  refine ⟨execLoop_timeout cmd oracle t ht, fun d h1 => ?_⟩
  have h2 := execLoop_timeout cmd oracle t ht (cmd.retry_count + 1) 0 0 d (by omega)
    (by simpa using h1)
  simpa [execute_command] using h2

/-- Witness for `timeout_returns_immediately`: a command with `timeout = 7`
and three retries allowed still returns after one timed-out attempt. -/
theorem timeout_returns_immediately_witness :
    execute_command false { name := "t", command := "x", timeout := some 7, retry_count := 3 }
        (fun _ => .timeoutExpired 2) =
      (⟨"x", false, -1, 2, "", "", some ("Timeout after " ++ toString (7 : Nat) ++ "s")⟩, 1, 2) :=
  (timeout_returns_immediately _ _ 7 rfl).2 2 rfl

/-- C2 counterexample: with `retry_count = 1` and `retry_delay = 1`, a first
attempt failing after 5 units and a second succeeding after 7 yield a result
whose duration is 7 — the span of the last attempt — while the wall clock
across all attempts and delays is 5 + 1 + 7 = 13. -/
theorem duration_counterexample :
    (execute_command false { name := "a", command := "x", retry_count := 1, retry_delay := 1 }
        (fun i => if i = 1 then .completed 1 "" "" 5 else .completed 0 "" "" 7)) =
      (⟨"x", true, 0, 7, "", "", none⟩, 2, 13) ∧ (7 : Nat) ≠ 13 :=
  ⟨rfl, by decide⟩

/-- C2 amended: for every command execution (one or more attempts), the
duration field of the final result equals the wall-clock span of the last
attempt alone, because the start time is reset at each attempt; it does not
accumulate earlier attempts or retry delays. -/
theorem duration_is_last_attempt (cmd : Command) (oracle : Nat → AttemptOutcome) :
    (execute_command false cmd oracle).1.duration =
      (oracle (execute_command false cmd oracle).2.1).elapsed := by
  simpa [execute_command] using
    execLoop_duration_last cmd oracle (cmd.retry_count + 1) 0 0 (by omega)

/-- C10: in dry-run mode `_execute_command` consults the attempt oracle for no
attempt (no process is spawned, whatever the oracle) and returns success,
exit code 0, duration 0, stdout "[DRY RUN - not executed]", empty stderr. -/
theorem dry_run_result (cmd : Command) (oracle oracle2 : Nat → AttemptOutcome) :
    execute_command true cmd oracle =
      (⟨cmd.command, true, 0, 0, "[DRY RUN - not executed]", "", none⟩, 0, 0) ∧
    execute_command true cmd oracle = execute_command true cmd oracle2 :=
  ⟨rfl, rfl⟩

/-! ## Theorems about the dependency validator -/

/-- Helper: climbing a DFS stack (chained by dependency edges toward its
head) from any member reaches the head along dependency edges. -/
theorem stack_chain_to_head (cmds : List Command) :
    ∀ (s : List String) (a dep : String),
      List.Chain' (fun u v => depEdge cmds v u) (a :: s) → dep ∈ a :: s →
      ∃ p, List.Chain' (depEdge cmds) (dep :: p) ∧ (dep :: p).getLast? = some a := by
  intro s
  induction s with
  | nil =>
    intro a dep _ hmem
    have h : dep = a := by simpa using hmem
    subst h
    exact ⟨[], List.chain'_singleton dep, rfl⟩
  | cons b s ih =>
    intro a dep hch hmem
    rw [List.chain'_cons] at hch
    rcases List.mem_cons.mp hmem with h | h
    · subst h
      exact ⟨[], List.chain'_singleton dep, rfl⟩
    · obtain ⟨p, hp, hlast⟩ := ih b dep hch.2 h
      have hsplit : dep :: (p ++ [a]) = (dep :: p) ++ [a] := by simp
      refine ⟨p ++ [a], ?_, ?_⟩
      · rw [hsplit, List.chain'_append]
        refine ⟨hp, List.chain'_singleton a, ?_⟩
        intro x hx y hy
        simp only [List.head?_cons, Option.mem_def, Option.some.injEq] at hy
        subst hy
        rw [hlast] at hx
        simp only [Option.mem_def, Option.some.injEq] at hx
        subst hx
        exact hch.1
      · rw [hsplit]
        exact List.getLast?_concat _

/-- Helper: when the DFS finds a dependency from the current node (the stack
head) onto a stack member, the graph has a dependency cycle. -/
theorem cycle_of_stack_hit (cmds : List Command) (name dep : String)
    (stack : List String) :
    List.Chain' (fun u v => depEdge cmds v u) stack → stack.head? = some name →
    dep ∈ stack → depEdge cmds name dep → HasDepCycle cmds := by
  intro hch hhead hmem hedge
  match stack, hhead with
  | a :: s, hhead =>
    have ha : a = name := by simpa using hhead
    subst ha
    obtain ⟨p, hp, hlast⟩ := stack_chain_to_head cmds s a dep hch hmem
    refine ⟨dep, p, ?_⟩
    have h2 : List.Chain' (depEdge cmds) ((dep :: p) ++ [dep]) := by
      rw [List.chain'_append]
      refine ⟨hp, List.chain'_singleton dep, ?_⟩
      intro x hx y hy
      simp only [List.head?_cons, Option.mem_def, Option.some.injEq] at hy
      subst hy
      rw [hlast] at hx
      simp only [Option.mem_def, Option.some.injEq] at hx
      subst hx
      exact hedge
    exact h2

/-- Shape of the DFS results: the visited list is only extended (with the
current name among the additions), and the error list is unchanged on a
`False` return and extended by exactly one circular-dependency entry on a
`True` return. -/
theorem dfs_shape (cmds : List Command) :
    ∀ fuel,
      (∀ name stack visited errors b v e,
          hasCycle cmds fuel name stack visited errors = some (b, v, e) →
          (∃ u, v = u ++ visited) ∧ name ∈ v ∧
          (b = false → e = errors) ∧
          (b = true → ∃ a d, e = errors ++ [ValidationError.circularDep a d])) ∧
      (∀ name stack deps visited errors b v e,
          visitDeps cmds fuel name stack deps visited errors = some (b, v, e) →
          (∃ u, v = u ++ visited) ∧
          (b = false → e = errors) ∧
          (b = true → ∃ a d, e = errors ++ [ValidationError.circularDep a d])) := by
  have hvd : ∀ fuel,
      (∀ name stack visited errors b v e,
          hasCycle cmds fuel name stack visited errors = some (b, v, e) →
          (∃ u, v = u ++ visited) ∧ name ∈ v ∧
          (b = false → e = errors) ∧
          (b = true → ∃ a d, e = errors ++ [ValidationError.circularDep a d])) →
      (∀ name stack deps visited errors b v e,
          visitDeps cmds fuel name stack deps visited errors = some (b, v, e) →
          (∃ u, v = u ++ visited) ∧
          (b = false → e = errors) ∧
          (b = true → ∃ a d, e = errors ++ [ValidationError.circularDep a d])) := by
    intro fuel hhc name stack deps
    induction deps with
    | nil =>
      intro visited errors b v e h
      simp only [visitDeps, Option.some.injEq, Prod.mk.injEq] at h
      obtain ⟨hb, hv, he⟩ := h
      subst hb; subst hv; subst he
      exact ⟨⟨[], rfl⟩, fun _ => rfl, fun hcon => by simp at hcon⟩
    | cons dep rest ih =>
      intro visited errors b v e h
      by_cases hmem : dep ∈ visited
      · by_cases hstk : dep ∈ stack
        · simp only [visitDeps, if_pos hmem, if_pos hstk, Option.some.injEq,
            Prod.mk.injEq] at h
          obtain ⟨hb, hv, he⟩ := h
          subst hb; subst hv; subst he
          exact ⟨⟨[], rfl⟩, fun hcon => by simp at hcon, fun _ => ⟨name, dep, rfl⟩⟩
        · simp only [visitDeps, if_pos hmem, if_neg hstk] at h
          exact ih visited errors b v e h
      · simp only [visitDeps, if_neg hmem] at h
        cases hrec : hasCycle cmds fuel dep stack visited errors with
        | none => rw [hrec] at h; simp at h
        | some res =>
          obtain ⟨b2, v2, e2⟩ := res
          rw [hrec] at h
          obtain ⟨⟨u2, hu2⟩, -, hf2, ht2⟩ := hhc dep stack visited errors b2 v2 e2 hrec
          cases b2 with
          | true =>
            simp only [Option.some.injEq, Prod.mk.injEq] at h
            obtain ⟨hb, hv, he⟩ := h
            subst hb; subst hv; subst he
            exact ⟨⟨u2, hu2⟩, fun hcon => by simp at hcon, fun _ => ht2 rfl⟩
          | false =>
            simp only at h
            obtain ⟨⟨u3, hu3⟩, hf3, ht3⟩ := ih v2 e2 b v e h
            have he2 : e2 = errors := hf2 rfl
            subst he2
            refine ⟨⟨u3 ++ u2, by rw [hu3, hu2, List.append_assoc]⟩, hf3, ht3⟩
  intro fuel
  induction fuel with
  | zero =>
    constructor
    · intro name stack visited errors b v e h
      simp [hasCycle] at h
    · refine hvd 0 ?_
      intro name stack visited errors b v e h
      simp [hasCycle] at h
  | succ n ih =>
    have hhc : ∀ name stack visited errors b v e,
        hasCycle cmds (n + 1) name stack visited errors = some (b, v, e) →
        (∃ u, v = u ++ visited) ∧ name ∈ v ∧
        (b = false → e = errors) ∧
        (b = true → ∃ a d, e = errors ++ [ValidationError.circularDep a d]) := by
      intro name stack visited errors b v e h
      cases hl : lookup cmds name with
      | none =>
        simp only [hasCycle, hl, Option.some.injEq, Prod.mk.injEq] at h
        obtain ⟨hb, hv, he⟩ := h
        subst hb; subst hv; subst he
        exact ⟨⟨[name], rfl⟩, List.mem_cons_self _ _, fun _ => rfl,
          fun hcon => by simp at hcon⟩
      | some cmd =>
        simp only [hasCycle, hl] at h
        obtain ⟨⟨u, hu⟩, hf, ht⟩ :=
          hvd n ih.1 name (name :: stack) cmd.depends_on (name :: visited) errors b v e h
        refine ⟨⟨u ++ [name], by rw [hu]; simp⟩, ?_, hf, ht⟩
        rw [hu]
        exact List.mem_append.mpr (Or.inr (List.mem_cons_self _ _))
    exact ⟨hhc, hvd (n + 1) hhc⟩

/-- Helper: a key that `lookup` resolves is the name of a listed command. -/
theorem lookup_some_mem (cmds : List Command) (n : String) (c : Command)
    (h : lookup cmds n = some c) : c ∈ cmds ∧ c.name = n := by
  refine ⟨List.mem_of_find?_eq_some h, ?_⟩
  have h2 := List.find?_some h
  simpa using h2

/-- Soundness of the DFS: a `True` return means the graph really has a
dependency cycle.  The preconditions record that the stack is the current
recursion path, chained by dependency edges toward its head. -/
theorem dfs_sound (cmds : List Command) :
    ∀ fuel,
      (∀ name stack visited errors v e,
          List.Chain' (fun x y => depEdge cmds y x) (name :: stack) →
          hasCycle cmds fuel name stack visited errors = some (true, v, e) →
          HasDepCycle cmds) ∧
      (∀ name stack deps visited errors v e,
          List.Chain' (fun x y => depEdge cmds y x) stack →
          stack.head? = some name →
          (∀ d ∈ deps, depEdge cmds name d) →
          visitDeps cmds fuel name stack deps visited errors = some (true, v, e) →
          HasDepCycle cmds) := by
  have hvd : ∀ fuel,
      (∀ name stack visited errors v e,
          List.Chain' (fun x y => depEdge cmds y x) (name :: stack) →
          hasCycle cmds fuel name stack visited errors = some (true, v, e) →
          HasDepCycle cmds) →
      (∀ name stack deps visited errors v e,
          List.Chain' (fun x y => depEdge cmds y x) stack →
          stack.head? = some name →
          (∀ d ∈ deps, depEdge cmds name d) →
          visitDeps cmds fuel name stack deps visited errors = some (true, v, e) →
          HasDepCycle cmds) := by
    intro fuel hhc name stack deps
    induction deps with
    | nil =>
      intro visited errors v e _ _ _ h
      simp [visitDeps] at h
    | cons dep rest ih =>
      intro visited errors v e hch hhead hdeps h
      by_cases hmem : dep ∈ visited
      · by_cases hstk : dep ∈ stack
        · exact cycle_of_stack_hit cmds name dep stack hch hhead hstk
            (hdeps dep (List.mem_cons_self _ _))
        · simp only [visitDeps, if_pos hmem, if_neg hstk] at h
          exact ih visited errors v e hch hhead
            (fun d hd => hdeps d (List.mem_cons_of_mem _ hd)) h
      · simp only [visitDeps, if_neg hmem] at h
        cases hrec : hasCycle cmds fuel dep stack visited errors with
        | none => rw [hrec] at h; simp at h
        | some res =>
          obtain ⟨b2, v2, e2⟩ := res
          rw [hrec] at h
          cases b2 with
          | true =>
            refine hhc dep stack visited errors v2 e2 ?_ hrec
            rw [List.chain'_cons']
            refine ⟨?_, hch⟩
            intro y hy
            rw [hhead] at hy
            simp only [Option.mem_def, Option.some.injEq] at hy
            subst hy
            exact hdeps dep (List.mem_cons_self _ _)
          | false =>
            simp only at h
            exact ih v2 e2 v e hch hhead
              (fun d hd => hdeps d (List.mem_cons_of_mem _ hd)) h
  intro fuel
  induction fuel with
  | zero =>
    constructor
    · intro name stack visited errors v e _ h
      simp [hasCycle] at h
    · refine hvd 0 ?_
      intro name stack visited errors v e _ h
      simp [hasCycle] at h
  | succ n ih =>
    have hhc : ∀ name stack visited errors v e,
        List.Chain' (fun x y => depEdge cmds y x) (name :: stack) →
        hasCycle cmds (n + 1) name stack visited errors = some (true, v, e) →
        HasDepCycle cmds := by
      intro name stack visited errors v e hch h
      cases hl : lookup cmds name with
      | none => simp [hasCycle, hl] at h
      | some cmd =>
        simp only [hasCycle, hl] at h
        refine hvd n ih.1 name (name :: stack) cmd.depends_on (name :: visited)
          errors v e hch rfl ?_ h
        intro d hd
        exact ⟨cmd, hl, hd⟩
    exact ⟨hhc, hvd (n + 1) hhc⟩

/-- The scan loop only extends the error list. -/
theorem cycleScan_errors_extend (cmds : List Command) (fuel : Nat) :
    ∀ names visited errors v e,
      cycleScan cmds fuel names visited errors = some (v, e) →
      (∃ t, e = errors ++ t) ∧ (∃ u, v = u ++ visited) := by
  intro names
  induction names with
  | nil =>
    intro visited errors v e h
    simp only [cycleScan, Option.some.injEq, Prod.mk.injEq] at h
    obtain ⟨hv, he⟩ := h
    subst hv; subst he
    exact ⟨⟨[], by simp⟩, ⟨[], rfl⟩⟩
  | cons n rest ih =>
    intro visited errors v e h
    by_cases hn : n ∈ visited
    · simp only [cycleScan, if_pos hn] at h
      exact ih visited errors v e h
    · simp only [cycleScan, if_neg hn] at h
      cases hrec : hasCycle cmds fuel n [] visited errors with
      | none => rw [hrec] at h; simp at h
      | some res =>
        obtain ⟨b2, v2, e2⟩ := res
        rw [hrec] at h
        simp only at h
        obtain ⟨⟨u2, hu2⟩, -, hf2, ht2⟩ :=
          (dfs_shape cmds fuel).1 n [] visited errors b2 v2 e2 hrec
        obtain ⟨⟨t3, ht3⟩, ⟨u3, hu3⟩⟩ := ih v2 e2 v e h
        constructor
        · cases b2 with
          | false => exact ⟨t3, by rw [ht3, hf2 rfl]⟩
          | true =>
            obtain ⟨a, d, he2⟩ := ht2 rfl
            exact ⟨[ValidationError.circularDep a d] ++ t3, by
              rw [ht3, he2, List.append_assoc]⟩
        · exact ⟨u3 ++ u2, by rw [hu3, hu2, List.append_assoc]⟩

/-- Soundness of the scan: the error list is unchanged, or a cycle exists. -/
theorem cycleScan_sound (cmds : List Command) (fuel : Nat) :
    ∀ names visited errors v e,
      cycleScan cmds fuel names visited errors = some (v, e) →
      e = errors ∨ HasDepCycle cmds := by
  intro names
  induction names with
  | nil =>
    intro visited errors v e h
    simp only [cycleScan, Option.some.injEq, Prod.mk.injEq] at h
    exact Or.inl h.2.symm
  | cons n rest ih =>
    intro visited errors v e h
    by_cases hn : n ∈ visited
    · simp only [cycleScan, if_pos hn] at h
      exact ih visited errors v e h
    · simp only [cycleScan, if_neg hn] at h
      cases hrec : hasCycle cmds fuel n [] visited errors with
      | none => rw [hrec] at h; simp at h
      | some res =>
        obtain ⟨b2, v2, e2⟩ := res
        rw [hrec] at h
        simp only at h
        cases b2 with
        | true =>
          exact Or.inr ((dfs_sound cmds fuel).1 n [] visited errors v2 e2
            (List.chain'_singleton n) hrec)
        | false =>
          have he2 : e2 = errors :=
            (((dfs_shape cmds fuel).1 n [] visited errors false v2 e2 hrec).2.2.1) rfl
          rw [← he2]
          exact ih v2 e2 v e h

/-- Completeness step of the DFS: a `False` return preserves the rank
invariant (with the freshly finished nodes ranked below a new bound), and
every dependency in the processed list ends up visited and off the stack. -/
theorem dfs_complete (cmds : List Command) :
    ∀ fuel,
      (∀ name stack visited errors v e r B,
          hasCycle cmds fuel name stack visited errors = some (false, v, e) →
          stack ⊆ visited → name ∉ visited →
          RankOK cmds stack visited r B →
          ∃ r2 B2, RankOK cmds stack v r2 B2) ∧
      (∀ name stack deps visited errors v e r B,
          visitDeps cmds fuel name stack deps visited errors = some (false, v, e) →
          stack ⊆ visited →
          RankOK cmds stack visited r B →
          ∃ r2 B2, RankOK cmds stack v r2 B2 ∧ ∀ d ∈ deps, d ∈ v ∧ d ∉ stack) := by
  have hvd : ∀ fuel,
      (∀ name stack visited errors v e r B,
          hasCycle cmds fuel name stack visited errors = some (false, v, e) →
          stack ⊆ visited → name ∉ visited →
          RankOK cmds stack visited r B →
          ∃ r2 B2, RankOK cmds stack v r2 B2) →
      (∀ name stack deps visited errors v e r B,
          visitDeps cmds fuel name stack deps visited errors = some (false, v, e) →
          stack ⊆ visited →
          RankOK cmds stack visited r B →
          ∃ r2 B2, RankOK cmds stack v r2 B2 ∧ ∀ d ∈ deps, d ∈ v ∧ d ∉ stack) := by
    intro fuel hhc name stack deps
    induction deps with
    | nil =>
      intro visited errors v e r B h _ hrk
      simp only [visitDeps, Option.some.injEq, Prod.mk.injEq, true_and] at h
      obtain ⟨hv, -⟩ := h
      subst hv
      exact ⟨r, B, hrk, by simp⟩
    | cons dep rest ih =>
      intro visited errors v e r B h hsub hrk
      by_cases hmem : dep ∈ visited
      · by_cases hstk : dep ∈ stack
        · simp [visitDeps, if_pos hmem, if_pos hstk] at h
        · simp only [visitDeps, if_pos hmem, if_neg hstk] at h
          obtain ⟨r2, B2, hrk2, hrest⟩ := ih visited errors v e r B h hsub hrk
          obtain ⟨⟨u, hu⟩, -, -⟩ :=
            (dfs_shape cmds fuel).2 name stack rest visited errors false v e h
          refine ⟨r2, B2, hrk2, ?_⟩
          intro d hd
          rcases List.mem_cons.mp hd with hd | hd
          · subst hd
            exact ⟨by rw [hu]; exact List.mem_append.mpr (Or.inr hmem), hstk⟩
          · exact hrest d hd
      · simp only [visitDeps, if_neg hmem] at h
        cases hrec : hasCycle cmds fuel dep stack visited errors with
        | none => rw [hrec] at h; simp at h
        | some res =>
          obtain ⟨b2, v2, e2⟩ := res
          rw [hrec] at h
          cases b2 with
          | true => simp at h
          | false =>
            simp only at h
            obtain ⟨r2, B2, hrk2⟩ := hhc dep stack visited errors v2 e2 r B hrec hsub hmem hrk
            obtain ⟨⟨u2, hu2⟩, hdep2, -, -⟩ :=
              (dfs_shape cmds fuel).1 dep stack visited errors false v2 e2 hrec
            have hsub2 : stack ⊆ v2 := by
              rw [hu2]
              exact fun x hx => List.mem_append.mpr (Or.inr (hsub hx))
            obtain ⟨r3, B3, hrk3, hrest⟩ := ih v2 e2 v e r2 B2 h hsub2 hrk2
            obtain ⟨⟨u3, hu3⟩, -, -⟩ :=
              (dfs_shape cmds fuel).2 name stack rest v2 e2 false v e h
            refine ⟨r3, B3, hrk3, ?_⟩
            intro d hd
            rcases List.mem_cons.mp hd with hd | hd
            · subst hd
              refine ⟨by rw [hu3]; exact List.mem_append.mpr (Or.inr hdep2), ?_⟩
              intro hcon
              exact hmem (hsub hcon)
            · exact hrest d hd
  intro fuel
  induction fuel with
  | zero =>
    constructor
    · intro name stack visited errors v e r B h
      simp [hasCycle] at h
    · refine hvd 0 ?_
      intro name stack visited errors v e r B h
      simp [hasCycle] at h
  | succ n ih =>
    have hhc : ∀ name stack visited errors v e r B,
        hasCycle cmds (n + 1) name stack visited errors = some (false, v, e) →
        stack ⊆ visited → name ∉ visited →
        RankOK cmds stack visited r B →
        ∃ r2 B2, RankOK cmds stack v r2 B2 := by
      intro name stack visited errors v e r B h hsub hname hrk
      cases hl : lookup cmds name with
      | none =>
        simp only [hasCycle, hl, Option.some.injEq, Prod.mk.injEq, true_and] at h
        obtain ⟨hv, -⟩ := h
        subst hv
        refine ⟨r, B, ?_, hrk.2⟩
        intro z hz
        rcases List.mem_cons.mp hz with hz | hz
        · subst hz
          refine Or.inr (fun d hd => ?_)
          obtain ⟨c, hc, -⟩ := hd
          rw [hl] at hc
          exact absurd hc (by simp)
        · rcases hrk.1 z hz with h2 | h2
          · exact Or.inl h2
          · refine Or.inr (fun d hd => ?_)
            obtain ⟨h3, h4, h5⟩ := h2 d hd
            exact ⟨List.mem_cons_of_mem _ h3, h4, h5⟩
      | some cmd =>
        simp only [hasCycle, hl] at h
        have hpush : RankOK cmds (name :: stack) (name :: visited) r B := by
          refine ⟨?_, hrk.2⟩
          intro z hz
          rcases List.mem_cons.mp hz with hz | hz
          · subst hz
            exact Or.inl (List.mem_cons_self _ _)
          · rcases hrk.1 z hz with h2 | h2
            · exact Or.inl (List.mem_cons_of_mem _ h2)
            · refine Or.inr (fun d hd => ?_)
              obtain ⟨h3, h4, h5⟩ := h2 d hd
              refine ⟨List.mem_cons_of_mem _ h3, ?_, h5⟩
              intro hcon
              rcases List.mem_cons.mp hcon with hcon | hcon
              · subst hcon; exact hname h3
              · exact h4 hcon
        have hsub2 : name :: stack ⊆ name :: visited := by
          intro x hx
          rcases List.mem_cons.mp hx with hx | hx
          · subst hx; exact List.mem_cons_self _ _
          · exact List.mem_cons_of_mem _ (hsub hx)
        obtain ⟨r2, B2, hrk2, hdeps2⟩ := hvd n ih.1 name (name :: stack) cmd.depends_on
          (name :: visited) errors v e r B h hsub2 hpush
        refine ⟨fun z => if z = name then B2 else r2 z, B2 + 1, ?_, ?_⟩
        · intro z hz
          by_cases hzn : z = name
          · subst hzn
            refine Or.inr (fun d hd => ?_)
            obtain ⟨c, hc, hdc⟩ := hd
            rw [hl] at hc
            injection hc with hc
            subst hc
            obtain ⟨hdv, hdstk⟩ := hdeps2 d hdc
            have hdne : d ≠ z := fun hcon => hdstk (hcon ▸ List.mem_cons_self _ _)
            refine ⟨hdv, fun hcon => hdstk (List.mem_cons_of_mem _ hcon), ?_⟩
            show (if d = z then B2 else r2 d) < (if z = z then B2 else r2 z)
            rw [if_neg hdne, if_pos rfl]
            exact hrk2.2 d
          · rcases hrk2.1 z hz with h2 | h2
            · rcases List.mem_cons.mp h2 with h2 | h2
              · exact absurd h2 hzn
              · exact Or.inl h2
            · refine Or.inr (fun d hd => ?_)
              obtain ⟨h3, h4, h5⟩ := h2 d hd
              have hdne : d ≠ name := fun hcon => h4 (hcon ▸ List.mem_cons_self _ _)
              refine ⟨h3, fun hcon => h4 (List.mem_cons_of_mem _ hcon), ?_⟩
              show (if d = name then B2 else r2 d) < (if z = name then B2 else r2 z)
              rw [if_neg hdne, if_neg hzn]
              exact h5
        · intro z
          show (if z = name then B2 else r2 z) < B2 + 1
          by_cases hzn : z = name
          · rw [if_pos hzn]; omega
          · rw [if_neg hzn]
            exact lt_trans (hrk2.2 z) (by omega)
    exact ⟨hhc, hvd (n + 1) hhc⟩

/-- Completeness at the scan level: when the whole scan appends no error,
the rank invariant survives and every scanned name ends up visited. -/
theorem cycleScan_complete (cmds : List Command) (fuel : Nat) :
    ∀ names visited errors v r B,
      cycleScan cmds fuel names visited errors = some (v, errors) →
      RankOK cmds [] visited r B →
      ∃ r2 B2, RankOK cmds [] v r2 B2 ∧ ∀ n ∈ names, n ∈ v := by
  intro names
  induction names with
  | nil =>
    intro visited errors v r B h hrk
    simp only [cycleScan, Option.some.injEq, Prod.mk.injEq] at h
    obtain ⟨hv, -⟩ := h
    subst hv
    exact ⟨r, B, hrk, by simp⟩
  | cons n rest ih =>
    intro visited errors v r B h hrk
    by_cases hn : n ∈ visited
    · simp only [cycleScan, if_pos hn] at h
      obtain ⟨r2, B2, hrk2, hall⟩ := ih visited errors v r B h hrk
      obtain ⟨-, ⟨u, hu⟩⟩ := cycleScan_errors_extend cmds fuel rest visited errors v errors h
      refine ⟨r2, B2, hrk2, ?_⟩
      intro m hm
      rcases List.mem_cons.mp hm with hm | hm
      · subst hm; rw [hu]; exact List.mem_append.mpr (Or.inr hn)
      · exact hall m hm
    · simp only [cycleScan, if_neg hn] at h
      cases hrec : hasCycle cmds fuel n [] visited errors with
      | none => rw [hrec] at h; simp at h
      | some res =>
        obtain ⟨b2, v2, e2⟩ := res
        rw [hrec] at h
        simp only at h
        obtain ⟨⟨u2, hu2⟩, hmem2, hf2, ht2⟩ :=
          (dfs_shape cmds fuel).1 n [] visited errors b2 v2 e2 hrec
        obtain ⟨⟨t2, ht2b⟩, ⟨u3, hu3⟩⟩ :=
          cycleScan_errors_extend cmds fuel rest v2 e2 v errors h
        cases b2 with
        | true =>
          obtain ⟨a, d, he2⟩ := ht2 rfl
          exfalso
          rw [he2] at ht2b
          have hlen : errors.length =
              (errors ++ [ValidationError.circularDep a d] ++ t2).length := by
            rw [← ht2b]
          simp at hlen
        | false =>
          have he2 : e2 = errors := hf2 rfl
          rw [he2] at h hrec
          obtain ⟨r2, B2, hrk2⟩ :=
            (dfs_complete cmds fuel).1 n [] visited errors v2 errors r B hrec
              (List.nil_subset _) hn hrk
          obtain ⟨r3, B3, hrk3, hall⟩ := ih v2 errors v r2 B2 h hrk2
          refine ⟨r3, B3, hrk3, ?_⟩
          intro m hm
          rcases List.mem_cons.mp hm with hm | hm
          · subst hm; rw [hu3]; exact List.mem_append.mpr (Or.inr hmem2)
          · exact hall m hm

/-- With the empty stack, ranks strictly descend along any dependency chain
out of a visited node, so the end of the chain has smaller rank. -/
theorem rank_descend (cmds : List Command) (visited : List String)
    (r : String → Nat) (B : Nat) (hrk : RankOK cmds [] visited r B) :
    ∀ p a, a ∈ visited → List.Chain (depEdge cmds) a p →
      ∀ b2, p.getLast? = some b2 → b2 ∈ visited ∧ r b2 < r a := by
  intro p
  induction p with
  | nil => intro a _ _ b2 h; simp at h
  | cons c p ih =>
    intro a ha hch b2 hb2
    rw [List.chain_cons] at hch
    have hblack := (hrk.1 a ha).resolve_left (by simp)
    obtain ⟨hc, -, hrc⟩ := hblack c hch.1
    cases p with
    | nil =>
      have hbc : c = b2 := by simpa using hb2
      subst hbc
      exact ⟨hc, hrc⟩
    | cons c2 p2 =>
      have hlast : (c2 :: p2).getLast? = some b2 := by
        rw [← hb2]
        exact List.getLast?_cons_cons.symm
      obtain ⟨hm, hlt⟩ := ih c hc hch.2 b2 hlast
      exact ⟨hm, lt_trans hlt hrc⟩

/-- The rank invariant with the empty stack rules out dependency cycles,
provided every command name has been visited. -/
theorem no_cycle_of_rank (cmds : List Command) (visited : List String)
    (r : String → Nat) (B : Nat) (hrk : RankOK cmds [] visited r B)
    (hnames : ∀ n ∈ cmds.map Command.name, n ∈ visited) :
    ¬ HasDepCycle cmds := by
  rintro ⟨n, p, hch⟩
  have hfirst : ∃ x, depEdge cmds n x := by
    cases hp : p ++ [n] with
    | nil => exact absurd hp (by simp)
    | cons x xs =>
      rw [hp, List.chain_cons] at hch
      exact ⟨x, hch.1⟩
  obtain ⟨x, c, hc, -⟩ := hfirst
  obtain ⟨hcmem, hcname⟩ := lookup_some_mem cmds n c hc
  have hn : n ∈ visited := hnames n (by
    rw [← hcname]
    exact List.mem_map_of_mem _ hcmem)
  have hdesc := rank_descend cmds visited r B hrk (p ++ [n]) n hn hch n
    (List.getLast?_concat _)
  exact absurd hdesc.2 (lt_irrefl _)

/-- Growing the visited list never increases the unvisited count. -/
theorem unvisitedCount_mono (cmds : List Command) (visited visited2 : List String)
    (h : ∀ x ∈ visited, x ∈ visited2) :
    unvisitedCount cmds visited2 ≤ unvisitedCount cmds visited := by
  apply Finset.card_le_card
  apply Finset.sdiff_subset_sdiff (Finset.Subset.refl _)
  intro x hx
  rw [List.mem_toFinset] at hx ⊢
  exact h x hx

/-- Visiting a new visitable name strictly decreases the unvisited count. -/
theorem unvisitedCount_cons_lt (cmds : List Command) (visited : List String)
    (n : String) (hu : n ∈ universeNames cmds) (hn : n ∉ visited) :
    unvisitedCount cmds (n :: visited) < unvisitedCount cmds visited := by
  have hsub : (universeNames cmds).toFinset \ (n :: visited).toFinset ⊆
      (universeNames cmds).toFinset \ visited.toFinset := by
    apply Finset.sdiff_subset_sdiff (Finset.Subset.refl _)
    intro x hx
    rw [List.mem_toFinset] at hx ⊢
    exact List.mem_cons_of_mem _ hx
  apply Finset.card_lt_card
  rw [Finset.ssubset_iff_of_subset hsub]
  refine ⟨n, ?_, ?_⟩
  · rw [Finset.mem_sdiff, List.mem_toFinset, List.mem_toFinset]
    exact ⟨hu, hn⟩
  · rw [Finset.mem_sdiff]
    rintro ⟨-, hcon⟩
    rw [List.mem_toFinset] at hcon
    exact hcon (List.mem_cons_self _ _)

/-- The DFS never exhausts its fuel while more names remain visitable than
fuel levels: each recursion level marks a new visitable name visited. -/
theorem dfs_fuel (cmds : List Command) :
    ∀ fuel,
      (∀ name stack visited errors,
          name ∈ universeNames cmds → name ∉ visited →
          unvisitedCount cmds visited + 1 ≤ fuel →
          hasCycle cmds fuel name stack visited errors ≠ none) ∧
      (∀ name stack deps visited errors,
          (∀ d ∈ deps, d ∈ universeNames cmds) →
          unvisitedCount cmds visited + 1 ≤ fuel →
          visitDeps cmds fuel name stack deps visited errors ≠ none) := by
  have hvd : ∀ fuel,
      (∀ name stack visited errors,
          name ∈ universeNames cmds → name ∉ visited →
          unvisitedCount cmds visited + 1 ≤ fuel →
          hasCycle cmds fuel name stack visited errors ≠ none) →
      (∀ name stack deps visited errors,
          (∀ d ∈ deps, d ∈ universeNames cmds) →
          unvisitedCount cmds visited + 1 ≤ fuel →
          visitDeps cmds fuel name stack deps visited errors ≠ none) := by
    intro fuel hhc name stack deps
    induction deps with
    | nil => intro visited errors _ _; simp [visitDeps]
    | cons dep rest ih =>
      intro visited errors hdeps hfuel
      by_cases hmem : dep ∈ visited
      · by_cases hstk : dep ∈ stack
        · simp [visitDeps, if_pos hmem, if_pos hstk]
        · simp only [visitDeps, if_pos hmem, if_neg hstk]
          exact ih visited errors (fun d hd => hdeps d (List.mem_cons_of_mem _ hd)) hfuel
      · simp only [visitDeps, if_neg hmem]
        cases hrec : hasCycle cmds fuel dep stack visited errors with
        | none =>
          exact absurd hrec (hhc dep stack visited errors
            (hdeps dep (List.mem_cons_self _ _)) hmem hfuel)
        | some res =>
          obtain ⟨b2, v2, e2⟩ := res
          cases b2 with
          | true => simp
          | false =>
            simp only
            obtain ⟨⟨u2, hu2⟩, -, -, -⟩ :=
              (dfs_shape cmds fuel).1 dep stack visited errors false v2 e2 hrec
            refine ih v2 e2 (fun d hd => hdeps d (List.mem_cons_of_mem _ hd)) ?_
            have hmono := unvisitedCount_mono cmds visited v2 (by
              rw [hu2]; exact fun x hx => List.mem_append.mpr (Or.inr hx))
            omega
  intro fuel
  induction fuel with
  | zero =>
    constructor
    · intro name stack visited errors _ _ hf
      exfalso; omega
    · refine hvd 0 ?_
      intro name stack visited errors _ _ hf
      exfalso; omega
  | succ n ih =>
    have hhc : ∀ name stack visited errors,
        name ∈ universeNames cmds → name ∉ visited →
        unvisitedCount cmds visited + 1 ≤ n + 1 →
        hasCycle cmds (n + 1) name stack visited errors ≠ none := by
      intro name stack visited errors hu hn hf
      cases hl : lookup cmds name with
      | none => simp [hasCycle, hl]
      | some cmd =>
        simp only [hasCycle, hl]
        refine hvd n ih.1 name (name :: stack) cmd.depends_on (name :: visited) errors ?_ ?_
        · intro d hd
          obtain ⟨hcm, -⟩ := lookup_some_mem cmds name cmd hl
          unfold universeNames
          exact List.mem_append.mpr (Or.inr (List.mem_flatMap.mpr ⟨cmd, hcm, hd⟩))
        · have hlt := unvisitedCount_cons_lt cmds visited name hu hn
          omega
    exact ⟨hhc, hvd (n + 1) hhc⟩

/-- The scan loop never exhausts the fuel either. -/
theorem cycleScan_fuel (cmds : List Command) (fuel : Nat) :
    ∀ names visited errors,
      (∀ m ∈ names, m ∈ universeNames cmds) →
      unvisitedCount cmds visited + 1 ≤ fuel →
      cycleScan cmds fuel names visited errors ≠ none := by
  intro names
  induction names with
  | nil => intro visited errors _ _; simp [cycleScan]
  | cons n rest ih =>
    intro visited errors hnames hf
    by_cases hn : n ∈ visited
    · simp only [cycleScan, if_pos hn]
      exact ih visited errors (fun m hm => hnames m (List.mem_cons_of_mem _ hm)) hf
    · simp only [cycleScan, if_neg hn]
      cases hrec : hasCycle cmds fuel n [] visited errors with
      | none =>
        exact absurd hrec ((dfs_fuel cmds fuel).1 n [] visited errors
          (hnames n (List.mem_cons_self _ _)) hn hf)
      | some res =>
        obtain ⟨b2, v2, e2⟩ := res
        simp only
        obtain ⟨⟨u2, hu2⟩, -, -, -⟩ :=
          (dfs_shape cmds fuel).1 n [] visited errors b2 v2 e2 hrec
        refine ih v2 e2 (fun m hm => hnames m (List.mem_cons_of_mem _ hm)) ?_
        have hmono := unvisitedCount_mono cmds visited v2 (by
          rw [hu2]; exact fun x hx => List.mem_append.mpr (Or.inr hx))
        omega

/-- The fuel chosen in `validate_dependencies` is large enough. -/
theorem validateFuel_big (cmds : List Command) :
    unvisitedCount cmds [] + 1 ≤ validateFuel cmds := by
  have h1 : unvisitedCount cmds [] ≤ (universeNames cmds).length := by
    unfold unvisitedCount
    calc ((universeNames cmds).toFinset \ ([] : List String).toFinset).card
        ≤ (universeNames cmds).toFinset.card :=
          Finset.card_le_card (Finset.sdiff_subset)
      _ ≤ (universeNames cmds).length := List.toFinset_card_le _
  have h2 : (universeNames cmds).length =
      cmds.length + (cmds.map (fun c => c.depends_on.length)).sum := by
    unfold universeNames
    rw [List.length_append, List.length_map, List.flatMap_def, List.length_flatten,
      List.map_map]
    rfl
  unfold validateFuel
  omega

/-- The dangling-reference phase produces no error iff no reference dangles. -/
theorem danglingErrors_eq_nil_iff (cmds : List Command) :
    danglingErrors cmds = [] ↔ NoDangling cmds := by
  unfold danglingErrors NoDangling
  rw [List.flatMap_eq_nil_iff]
  constructor
  · intro h c hc d hd
    have h2 := h c hc
    rw [List.map_eq_nil_iff, List.filter_eq_nil_iff] at h2
    have h3 := h2 d hd
    simpa using h3
  · intro h c hc
    rw [List.map_eq_nil_iff, List.filter_eq_nil_iff]
    intro d hd
    simpa using h c hc d hd

/-- The scan inside `validate_dependencies` always returns a result, and the
validator returns its error list together with its emptiness flag. -/
theorem validate_eq_result (cmds : List Command) :
    ∃ v e, cycleScan cmds (validateFuel cmds) (cmds.map Command.name) []
        (danglingErrors cmds) = some (v, e) ∧
      validate_dependencies cmds = (e.isEmpty, e) := by
  have h := cycleScan_fuel cmds (validateFuel cmds) (cmds.map Command.name) []
    (danglingErrors cmds)
    (fun m hm => by unfold universeNames; exact List.mem_append.mpr (Or.inl hm))
    (validateFuel_big cmds)
  cases hres : cycleScan cmds (validateFuel cmds) (cmds.map Command.name) []
      (danglingErrors cmds) with
  | none => exact absurd hres h
  | some res =>
    obtain ⟨v, e⟩ := res
    refine ⟨v, e, rfl, ?_⟩
    unfold validate_dependencies
    rw [hres]

/-- Core equivalence behind C4: the validator reports no error iff all
declared dependencies exist and the dependency graph is acyclic. -/
theorem validate_nil_iff (cmds : List Command) :
    (validate_dependencies cmds).2 = [] ↔ NoDangling cmds ∧ ¬ HasDepCycle cmds := by
  obtain ⟨v, e, hscan, hval⟩ := validate_eq_result cmds
  rw [hval]
  simp only
  constructor
  · intro he
    subst he
    obtain ⟨⟨t, ht⟩, -⟩ := cycleScan_errors_extend cmds (validateFuel cmds)
      (cmds.map Command.name) [] (danglingErrors cmds) v [] hscan
    have hdang : danglingErrors cmds = [] := by
      cases hd : danglingErrors cmds with
      | nil => rfl
      | cons x xs => rw [hd] at ht; simp at ht
    refine ⟨(danglingErrors_eq_nil_iff cmds).mp hdang, ?_⟩
    rw [hdang] at hscan
    obtain ⟨r2, B2, hrk2, hall⟩ := cycleScan_complete cmds (validateFuel cmds)
      (cmds.map Command.name) [] [] v (fun _ => 0) 1 hscan
      ⟨by simp, fun _ => one_pos⟩
    exact no_cycle_of_rank cmds v r2 B2 hrk2 hall
  · rintro ⟨hnd, hnc⟩
    have hdang : danglingErrors cmds = [] := (danglingErrors_eq_nil_iff cmds).mpr hnd
    rcases cycleScan_sound cmds (validateFuel cmds) (cmds.map Command.name) []
      (danglingErrors cmds) v e hscan with he | hcyc
    · rw [he, hdang]
    · exact absurd hcyc hnc

/-- C4: `validate_dependencies` reports no errors if and only if every name in
every dependsOn list is a key of the command map and the dependency graph is
acyclic (the returned flag is the emptiness of the error list); in particular
the map with zero commands is reported valid. -/
theorem validate_dependencies_iff (cmds : List Command) :
    ((validate_dependencies cmds).2 = [] ↔ NoDangling cmds ∧ ¬ HasDepCycle cmds) ∧
    ((validate_dependencies cmds).1 = true ↔ (validate_dependencies cmds).2 = []) ∧
    validate_dependencies [] = (true, []) := by
  refine ⟨validate_nil_iff cmds, ?_, by rfl⟩
  obtain ⟨v, e, hscan, hval⟩ := validate_eq_result cmds
  rw [hval]
  simp

/-! ## Theorems about the level scheduler -/

/-- A successful association-list lookup yields a listed pair. -/
theorem lookup_mem_pair : ∀ (levels : List (String × Nat)) (k : String) (v : Nat),
    List.lookup k levels = some v → (k, v) ∈ levels := by
  intro levels
  induction levels with
  | nil => intro k v h; simp [List.lookup] at h
  | cons p rest ih =>
    intro k v h
    obtain ⟨k2, v2⟩ := p
    by_cases hk : k = k2
    · subst hk
      rw [List.lookup_cons_self] at h
      injection h with h
      subst h
      exact List.mem_cons_self _ _
    · have hne : (k == k2) = false := by simpa using hk
      rw [List.lookup_cons, hne] at h
      exact List.mem_cons_of_mem _ (ih k v h)

/-- A memo lookup is stable under extending the memo with fresh keys. -/
theorem lookup_extend (levels2 levels new : List (String × Nat))
    (heq : levels2 = new ++ levels) (hnd : (levels2.map Prod.fst).Nodup)
    (d : String) (x : Nat) (h : List.lookup d levels = some x) :
    List.lookup d levels2 = some x := by
  subst heq
  rw [List.lookup_append]
  have hd : d ∈ levels.map Prod.fst :=
    List.mem_map_of_mem Prod.fst (lookup_mem_pair levels d x h)
  have hnone : List.lookup d new = none := by
    rw [List.lookup_eq_none_iff]
    intro p hp
    rw [List.map_append, List.nodup_append] at hnd
    have hp1 : p.1 ∈ new.map Prod.fst := List.mem_map_of_mem Prod.fst hp
    have hne : p.1 ≠ d := by
      intro hcon
      exact hnd.2.2 hp1 (hcon ▸ hd)
    simpa using fun hcon => hne hcon.symm
  rw [hnone, Option.none_or, h]

/-- Memo-entry soundness is stable under extending the memo with fresh keys. -/
theorem entryOK_extend (cmds : List Command) (levels2 levels new : List (String × Nat))
    (heq : levels2 = new ++ levels) (hnd : (levels2.map Prod.fst).Nodup)
    (p : String × Nat) (h : EntryOK cmds levels p) : EntryOK cmds levels2 p := by
  obtain ⟨cmd, hc, h0, h1⟩ := h
  refine ⟨cmd, hc, h0, fun hne => ?_⟩
  obtain ⟨hex, heqv⟩ := h1 hne
  constructor
  · intro d hd
    obtain ⟨ld, hld⟩ := hex d hd
    exact ⟨ld, lookup_extend levels2 levels new heq hnd d ld hld⟩
  · rw [heqv]
    have hmap : cmd.depends_on.map (fun d => (List.lookup d levels).getD 0) =
        cmd.depends_on.map (fun d => (List.lookup d levels2).getD 0) := by
      apply List.map_congr_left
      intro d hd
      obtain ⟨ld, hld⟩ := hex d hd
      rw [hld, lookup_extend levels2 levels new heq hnd d ld hld]
    rw [hmap]

/-- Folding `Nat.max` from an arbitrary seed. -/
theorem foldl_max_init : ∀ (xs : List Nat) (a : Nat),
    xs.foldl Nat.max a = Nat.max a (xs.foldl Nat.max 0) := by
  intro xs
  induction xs with
  | nil => intro a; simp
  | cons x xs ih =>
    intro a
    simp only [List.foldl_cons]
    rw [ih (Nat.max a x), ih (Nat.max 0 x)]
    simp [Nat.zero_max, Nat.max_assoc]

/-- Every member is below the `Nat.max` fold of its list. -/
theorem le_foldl_max : ∀ (xs : List Nat) (x : Nat), x ∈ xs → x ≤ xs.foldl Nat.max 0 := by
  intro xs
  induction xs with
  | nil => intro x h; simp at h
  | cons y xs ih =>
    intro x h
    rw [List.foldl_cons, foldl_max_init]
    rcases List.mem_cons.mp h with h | h
    · subst h
      exact le_trans (Nat.le_max_right 0 x) (Nat.le_max_left _ _)
    · exact le_trans (ih x h) (Nat.le_max_right _ _)

/-- An existing key resolves by `containsName`. -/
theorem containsName_mem (cmds : List Command) (z : String)
    (h : containsName cmds z = true) : z ∈ cmds.map Command.name := by
  unfold containsName at h
  rw [Option.isSome_iff_exists] at h
  obtain ⟨c, hc⟩ := h
  obtain ⟨hcm, hcn⟩ := lookup_some_mem cmds z c hc
  rw [← hcn]
  exact List.mem_map_of_mem _ hcm

/-- Conversely, a command name is contained as a key. -/
theorem mem_containsName (cmds : List Command) (n : String)
    (h : n ∈ cmds.map Command.name) : containsName cmds n = true := by
  obtain ⟨c, hcm, hcn⟩ := List.mem_map.mp h
  unfold containsName lookup
  simp only [List.find?_isSome]
  exact ⟨c, hcm, by simp [hcn]⟩

/-- With unique command names, `lookup` retrieves each listed command. -/
theorem lookup_self (cmds : List Command) :
    (cmds.map Command.name).Nodup →
    ∀ c ∈ cmds, lookup cmds c.name = some c := by
  induction cmds with
  | nil => intro _ c h; simp at h
  | cons a rest ih =>
    intro hkeys c hc
    rw [List.map_cons, List.nodup_cons] at hkeys
    rcases List.mem_cons.mp hc with hc | hc
    · subst hc
      unfold lookup
      rw [List.find?_cons_of_pos _ (by simp)]
    · have hne : (a.name == c.name) = false := by
        have : a.name ≠ c.name := by
          intro hcon
          exact hkeys.1 (hcon ▸ List.mem_map_of_mem Command.name hc)
        simpa using this
      unfold lookup
      rw [List.find?_cons_of_neg _ (by simpa using hne)]
      exact ih hkeys.2 c hc

/-- A dependency chain can be cut at any member, ending there. -/
theorem chain_to_member (cmds : List Command) :
    ∀ (rest : List String) (y x : String),
      List.Chain (depEdge cmds) y rest → x ∈ rest →
      ∃ q, List.Chain (depEdge cmds) y (q ++ [x]) := by
  intro rest
  induction rest with
  | nil => intro y x _ h; simp at h
  | cons z rest ih =>
    intro y x hch hx
    rw [List.chain_cons] at hch
    rcases List.mem_cons.mp hx with hx | hx
    · subst hx
      exact ⟨[], by rw [List.nil_append]; exact List.chain_singleton.mpr hch.1⟩
    · obtain ⟨q, hq⟩ := ih z x hch.2 hx
      exact ⟨z :: q, by rw [List.cons_append]; exact List.chain_cons.mpr ⟨hch.1, hq⟩⟩

/-- On an acyclic graph, dependency chains never repeat a name. -/
theorem chain_nodup (cmds : List Command) (hnc : ¬ HasDepCycle cmds) :
    ∀ (p : List String) (n : String),
      List.Chain (depEdge cmds) n p → (n :: p).Nodup := by
  intro p
  induction p with
  | nil => intro n _; simp
  | cons z rest ih =>
    intro n hch
    rw [List.chain_cons] at hch
    rw [List.nodup_cons]
    refine ⟨?_, ih z hch.2⟩
    intro hmem
    obtain ⟨q, hq⟩ := chain_to_member cmds (z :: rest) n n
      (List.chain_cons.mpr hch) hmem
    exact hnc ⟨n, q, hq⟩

/-- With no dangling references, every chain stays among command names. -/
theorem chain_mem_names (cmds : List Command) (hnd : NoDangling cmds) :
    ∀ (p : List String) (n : String), List.Chain (depEdge cmds) n p →
      ∀ x ∈ p, x ∈ cmds.map Command.name := by
  intro p
  induction p with
  | nil => intro n _ x h; simp at h
  | cons z rest ih =>
    intro n hch x hx
    rw [List.chain_cons] at hch
    rcases List.mem_cons.mp hx with hx | hx
    · subst hx
      obtain ⟨c, hc, hz⟩ := hch.1
      obtain ⟨hcm, -⟩ := lookup_some_mem cmds n c hc
      exact containsName_mem cmds x (hnd c hcm x hz)
    · exact ih z hch.2 x hx

/-- On a validated graph, dependency chains out of a command name are shorter
than the fuel used by `_get_execution_order`. -/
theorem chain_length_bound (cmds : List Command) (hnd : NoDangling cmds)
    (hnc : ¬ HasDepCycle cmds) (p : List String) (n : String)
    (hn : n ∈ cmds.map Command.name)
    (hch : List.Chain (depEdge cmds) n p) : p.length < levelFuel cmds := by
  have hnodup : (n :: p).Nodup := chain_nodup cmds hnc p n hch
  have hsubset : (n :: p) ⊆ cmds.map Command.name := by
    intro x hx
    rcases List.mem_cons.mp hx with hx | hx
    · exact hx ▸ hn
    · exact chain_mem_names cmds hnd p n hch x hx
  have hle := (List.subperm_of_subset hnodup hsubset).length_le
  rw [List.length_cons, List.length_map] at hle
  unfold levelFuel
  omega

/-- Unfolded form of `Nat.zero_max` on the bare `Nat.max`. -/
theorem nat_max_zero_left (n : Nat) : Nat.max 0 n = n := Nat.zero_max n

/-- Totality and soundness of the memoized level computation on a validated
graph: within the chain-length fuel bound it succeeds, preserves the memo
invariant, memoizes the requested name, and adds only names reachable from
it. -/
theorem getLevel_total (cmds : List Command) (hnd : NoDangling cmds)
    (hnc : ¬ HasDepCycle cmds) :
    ∀ fuel,
      (∀ name levels,
          containsName cmds name = true →
          (∀ p, List.Chain (depEdge cmds) name p → p.length < fuel) →
          MemoOK cmds levels →
          ∃ l levels2, getLevel cmds fuel name levels = some (l, levels2) ∧
            MemoOK cmds levels2 ∧ (∃ new, levels2 = new ++ levels) ∧
            List.lookup name levels2 = some l ∧
            (∀ k, List.lookup k levels = none → k ≠ name →
              (List.lookup k levels2).isSome = true →
              ∃ p, List.Chain (depEdge cmds) name (p ++ [k]))) ∧
      (∀ deps levels,
          (∀ d ∈ deps, containsName cmds d = true) →
          (∀ d ∈ deps, ∀ p, List.Chain (depEdge cmds) d p → p.length < fuel) →
          MemoOK cmds levels →
          ∃ m levels2, maxLevels cmds fuel deps levels = some (m, levels2) ∧
            MemoOK cmds levels2 ∧ (∃ new, levels2 = new ++ levels) ∧
            (∀ d ∈ deps, ∃ ld, List.lookup d levels2 = some ld) ∧
            m = (deps.map (fun d => (List.lookup d levels2).getD 0)).foldl Nat.max 0 ∧
            (∀ k, List.lookup k levels = none →
              (List.lookup k levels2).isSome = true →
              ∃ d ∈ deps, k = d ∨ ∃ p, List.Chain (depEdge cmds) d (p ++ [k]))) := by
  have hvd : ∀ fuel,
      (∀ name levels,
          containsName cmds name = true →
          (∀ p, List.Chain (depEdge cmds) name p → p.length < fuel) →
          MemoOK cmds levels →
          ∃ l levels2, getLevel cmds fuel name levels = some (l, levels2) ∧
            MemoOK cmds levels2 ∧ (∃ new, levels2 = new ++ levels) ∧
            List.lookup name levels2 = some l ∧
            (∀ k, List.lookup k levels = none → k ≠ name →
              (List.lookup k levels2).isSome = true →
              ∃ p, List.Chain (depEdge cmds) name (p ++ [k]))) →
      (∀ deps levels,
          (∀ d ∈ deps, containsName cmds d = true) →
          (∀ d ∈ deps, ∀ p, List.Chain (depEdge cmds) d p → p.length < fuel) →
          MemoOK cmds levels →
          ∃ m levels2, maxLevels cmds fuel deps levels = some (m, levels2) ∧
            MemoOK cmds levels2 ∧ (∃ new, levels2 = new ++ levels) ∧
            (∀ d ∈ deps, ∃ ld, List.lookup d levels2 = some ld) ∧
            m = (deps.map (fun d => (List.lookup d levels2).getD 0)).foldl Nat.max 0 ∧
            (∀ k, List.lookup k levels = none →
              (List.lookup k levels2).isSome = true →
              ∃ d ∈ deps, k = d ∨ ∃ p, List.Chain (depEdge cmds) d (p ++ [k]))) := by
    intro fuel hgl deps
    induction deps with
    | nil =>
      intro levels _ _ hmk
      refine ⟨0, levels, by simp [maxLevels], hmk, ⟨[], rfl⟩, by simp, by simp, ?_⟩
      intro k hk1 hk2
      rw [hk1] at hk2
      simp at hk2
    | cons d rest ih =>
      intro levels hcont hbound hmk
      obtain ⟨l, lv2, hgl2, hm2, ⟨n2, hn2⟩, hld, hnew2⟩ :=
        hgl d levels (hcont d (List.mem_cons_self _ _))
          (hbound d (List.mem_cons_self _ _)) hmk
      obtain ⟨m2, lv3, hml, hm3, ⟨n3, hn3⟩, hlds, hformula, hnew3⟩ :=
        ih lv2 (fun x hx => hcont x (List.mem_cons_of_mem _ hx))
          (fun x hx => hbound x (List.mem_cons_of_mem _ hx)) hm2
      have hld3 : List.lookup d lv3 = some l :=
        lookup_extend lv3 lv2 n3 hn3 hm3.1 d l hld
      refine ⟨Nat.max l m2, lv3, ?_, hm3, ⟨n3 ++ n2, by rw [hn3, hn2, List.append_assoc]⟩,
        ?_, ?_, ?_⟩
      · simp only [maxLevels, hgl2, hml]
      · intro x hx
        rcases List.mem_cons.mp hx with hx | hx
        · exact ⟨l, hx ▸ hld3⟩
        · exact hlds x hx
      · rw [List.map_cons, List.foldl_cons, foldl_max_init, hld3]
        simp only [Option.getD_some, nat_max_zero_left]
        rw [hformula]
      · intro k hk1 hk2
        by_cases hkin2 : (List.lookup k lv2).isSome = true
        · by_cases hkd : k = d
          · exact ⟨d, List.mem_cons_self _ _, Or.inl hkd⟩
          · obtain ⟨p, hp⟩ := hnew2 k hk1 hkd hkin2
            exact ⟨d, List.mem_cons_self _ _, Or.inr ⟨p, hp⟩⟩
        · have hknone : List.lookup k lv2 = none := by
            cases h : List.lookup k lv2 with
            | none => rfl
            | some x => rw [h] at hkin2; simp at hkin2
          obtain ⟨d2, hd2, hcase⟩ := hnew3 k hknone hk2
          exact ⟨d2, List.mem_cons_of_mem _ hd2, hcase⟩
  intro fuel
  induction fuel with
  | zero =>
    constructor
    · intro name levels _ hbound _
      exfalso
      exact absurd (hbound [] List.Chain.nil) (by simp)
    · refine hvd 0 ?_
      intro name levels _ hbound _
      exfalso
      exact absurd (hbound [] List.Chain.nil) (by simp)
  | succ n ih =>
    have hgl : ∀ name levels,
        containsName cmds name = true →
        (∀ p, List.Chain (depEdge cmds) name p → p.length < n + 1) →
        MemoOK cmds levels →
        ∃ l levels2, getLevel cmds (n + 1) name levels = some (l, levels2) ∧
          MemoOK cmds levels2 ∧ (∃ new, levels2 = new ++ levels) ∧
          List.lookup name levels2 = some l ∧
          (∀ k, List.lookup k levels = none → k ≠ name →
            (List.lookup k levels2).isSome = true →
            ∃ p, List.Chain (depEdge cmds) name (p ++ [k])) := by
      intro name levels hcn hbound hmk
      cases hm : List.lookup name levels with
      | some l =>
        refine ⟨l, levels, by simp [getLevel, hm], hmk, ⟨[], rfl⟩, hm, ?_⟩
        intro k hk1 _ hk2
        rw [hk1] at hk2
        simp at hk2
      | none =>
        obtain ⟨cmd, hcmd⟩ := Option.isSome_iff_exists.mp hcn
        have hnk : name ∉ levels.map Prod.fst := by
          rw [List.lookup_eq_none_iff] at hm
          intro hcon
          obtain ⟨p, hp, hpn⟩ := List.mem_map.mp hcon
          have h2 := hm p hp
          rw [hpn] at h2
          simp at h2
        have hcmem := lookup_some_mem cmds name cmd hcmd
        cases hdeps : cmd.depends_on.isEmpty with
        | true =>
          refine ⟨0, (name, 0) :: levels, by simp [getLevel, hm, hcmd, hdeps], ?_,
            ⟨[(name, 0)], rfl⟩, List.lookup_cons_self, ?_⟩
          · constructor
            · rw [List.map_cons, List.nodup_cons]
              exact ⟨hnk, hmk.1⟩
            · intro p hp
              rcases List.mem_cons.mp hp with hp | hp
              · subst hp
                exact ⟨cmd, hcmd, fun _ => rfl, fun hcon => absurd hdeps (by rw [hcon]; simp)⟩
              · exact entryOK_extend cmds ((name, 0) :: levels) levels [(name, 0)] rfl
                  (by rw [List.map_cons, List.nodup_cons]; exact ⟨hnk, hmk.1⟩)
                  p (hmk.2 p hp)
          · intro k hk1 hkname hk2
            have hke : ((name, 0) :: levels).lookup k = levels.lookup k := by
              rw [List.lookup_cons]
              simp [show (k == name) = false by simpa using hkname]
            rw [hke, hk1] at hk2
            simp at hk2
        | false =>
          have hcont2 : ∀ d ∈ cmd.depends_on, containsName cmds d = true :=
            fun d hd => hnd cmd hcmem.1 d hd
          have hbound2 : ∀ d ∈ cmd.depends_on, ∀ p,
              List.Chain (depEdge cmds) d p → p.length < n := by
            intro d hd p hp
            have hch : List.Chain (depEdge cmds) name (d :: p) :=
              List.chain_cons.mpr ⟨⟨cmd, hcmd, hd⟩, hp⟩
            have := hbound (d :: p) hch
            simp at this
            omega
          obtain ⟨m, lv2, hml, hm2, ⟨n2, hn2⟩, hlds, hformula, hnew2⟩ :=
            hvd n ih.1 cmd.depends_on levels hcont2 hbound2 hmk
          have hnotin : ¬ (List.lookup name lv2).isSome = true := by
            intro hsome
            obtain ⟨d, hd, hcase⟩ := hnew2 name hm hsome
            rcases hcase with hcase | ⟨p, hp⟩
            · exact hnc ⟨name, [], by
                rw [List.nil_append]
                exact List.chain_singleton.mpr ⟨cmd, hcmd, hcase ▸ hd⟩⟩
            · exact hnc ⟨name, d :: p, by
                rw [List.cons_append]
                exact List.chain_cons.mpr ⟨⟨cmd, hcmd, hd⟩, hp⟩⟩
          have hnk2 : name ∉ lv2.map Prod.fst := by
            intro hcon
            apply hnotin
            rw [List.lookup_isSome_iff]
            obtain ⟨p, hp, hpn⟩ := List.mem_map.mp hcon
            exact ⟨p, hp, by simp [hpn]⟩
          have hndcons : ((name, m + 1) :: lv2).map Prod.fst |>.Nodup := by
            rw [List.map_cons, List.nodup_cons]
            exact ⟨hnk2, hm2.1⟩
          refine ⟨m + 1, (name, m + 1) :: lv2,
            by simp [getLevel, hm, hcmd, hdeps, hml], ?_,
            ⟨(name, m + 1) :: n2, by rw [hn2]; rfl⟩, List.lookup_cons_self, ?_⟩
          · constructor
            · exact hndcons
            · intro p hp
              rcases List.mem_cons.mp hp with hp | hp
              · subst hp
                refine ⟨cmd, hcmd, fun hcon => absurd hdeps (by rw [hcon]; simp), ?_⟩
                intro _
                constructor
                · intro d hd
                  obtain ⟨ld, hld⟩ := hlds d hd
                  exact ⟨ld, lookup_extend ((name, m + 1) :: lv2) lv2 [(name, m + 1)]
                    rfl hndcons d ld hld⟩
                · have hmap : cmd.depends_on.map
                        (fun d => (List.lookup d lv2).getD 0) =
                      cmd.depends_on.map
                        (fun d => (List.lookup d ((name, m + 1) :: lv2)).getD 0) := by
                    apply List.map_congr_left
                    intro d hd
                    obtain ⟨ld, hld⟩ := hlds d hd
                    rw [hld, lookup_extend ((name, m + 1) :: lv2) lv2 [(name, m + 1)]
                      rfl hndcons d ld hld]
                  rw [← hmap, ← hformula]
              · exact entryOK_extend cmds ((name, m + 1) :: lv2) lv2 [(name, m + 1)]
                  rfl hndcons p (hm2.2 p hp)
          · intro k hk1 hkname hk2
            have hke : ((name, m + 1) :: lv2).lookup k = lv2.lookup k := by
              rw [List.lookup_cons]
              simp [show (k == name) = false by simpa using hkname]
            rw [hke] at hk2
            obtain ⟨d, hd, hcase⟩ := hnew2 k hk1 hk2
            rcases hcase with hcase | ⟨p, hp⟩
            · exact ⟨[], by
                rw [List.nil_append]
                exact List.chain_singleton.mpr ⟨cmd, hcmd, hcase ▸ hd⟩⟩
            · exact ⟨d :: p, by
                rw [List.cons_append]
                exact List.chain_cons.mpr ⟨⟨cmd, hcmd, hd⟩, hp⟩⟩
    exact ⟨hgl, hvd (n + 1) hgl⟩

/-- Totality of the level-computation driver loop on a validated graph. -/
theorem levelLoop_total (cmds : List Command) (hnd : NoDangling cmds)
    (hnc : ¬ HasDepCycle cmds) (fuel : Nat) :
    ∀ names levels,
      (∀ m ∈ names, containsName cmds m = true) →
      (∀ m ∈ names, ∀ p, List.Chain (depEdge cmds) m p → p.length < fuel) →
      MemoOK cmds levels →
      ∃ levels2, levelLoop cmds fuel names levels = some levels2 ∧
        MemoOK cmds levels2 ∧ (∃ new, levels2 = new ++ levels) ∧
        ∀ m ∈ names, (List.lookup m levels2).isSome = true := by
  intro names
  induction names with
  | nil =>
    intro levels _ _ hmk
    exact ⟨levels, by simp [levelLoop], hmk, ⟨[], rfl⟩, by simp⟩
  | cons m rest ih =>
    intro levels hcont hbound hmk
    obtain ⟨l, lv2, hgl, hm2, ⟨n2, hn2⟩, hld, -⟩ :=
      (getLevel_total cmds hnd hnc fuel).1 m levels (hcont m (List.mem_cons_self _ _))
        (hbound m (List.mem_cons_self _ _)) hmk
    obtain ⟨lv3, hloop, hm3, ⟨n3, hn3⟩, hall⟩ :=
      ih lv2 (fun x hx => hcont x (List.mem_cons_of_mem _ hx))
        (fun x hx => hbound x (List.mem_cons_of_mem _ hx)) hm2
    refine ⟨lv3, by simp [levelLoop, hgl, hloop], hm3,
      ⟨n3 ++ n2, by rw [hn3, hn2, List.append_assoc]⟩, ?_⟩
    intro x hx
    rcases List.mem_cons.mp hx with hx | hx
    · subst hx
      rw [lookup_extend lv3 lv2 n3 hn3 hm3.1 x l hld]
      rfl
    · exact hall x hx

/-- On a validated graph with unique names, `computeAllLevels` succeeds with
a sound memo whose keys are exactly the command names, one entry each. -/
theorem computeAllLevels_total (cmds : List Command) (hnd : NoDangling cmds)
    (hnc : ¬ HasDepCycle cmds) (hkeys : (cmds.map Command.name).Nodup) :
    ∃ levels, computeAllLevels cmds = some levels ∧ MemoOK cmds levels ∧
      (∀ m ∈ cmds.map Command.name, (List.lookup m levels).isSome = true) ∧
      (∀ p ∈ levels, p.1 ∈ cmds.map Command.name) ∧
      levels.length = cmds.length := by
  obtain ⟨levels, hloop, hmk, -, hall⟩ := levelLoop_total cmds hnd hnc (levelFuel cmds)
    (cmds.map Command.name) [] (fun m hm => mem_containsName cmds m hm)
    (fun m hm p hp => chain_length_bound cmds hnd hnc p m hm hp)
    ⟨by simp, by simp⟩
  have hkeysub : ∀ p ∈ levels, p.1 ∈ cmds.map Command.name := by
    intro p hp
    obtain ⟨cmd, hcmd, -, -⟩ := hmk.2 p hp
    obtain ⟨hcm, hcn⟩ := lookup_some_mem cmds p.1 cmd hcmd
    rw [← hcn]
    exact List.mem_map_of_mem _ hcm
  refine ⟨levels, hloop, hmk, hall, hkeysub, ?_⟩
  have hsub1 : levels.map Prod.fst ⊆ cmds.map Command.name := by
    intro x hx
    obtain ⟨p, hp, hpe⟩ := List.mem_map.mp hx
    exact hpe ▸ hkeysub p hp
  have hsub2 : cmds.map Command.name ⊆ levels.map Prod.fst := by
    intro m hm
    have h2 := hall m hm
    rw [List.lookup_isSome_iff] at h2
    obtain ⟨p, hp, hpe⟩ := h2
    have hme : m = p.1 := by simpa using hpe
    rw [hme]
    exact List.mem_map_of_mem _ hp
  have hle1 := (List.subperm_of_subset hmk.1 hsub1).length_le
  have hle2 := (List.subperm_of_subset hkeys hsub2).length_le
  rw [List.length_map, List.length_map] at hle1
  rw [List.length_map, List.length_map] at hle2
  omega

/-- C5: on every validated acyclic graph (validator reports no errors, names
unique), the computed level of each command is 0 when its dependsOn list is
empty and 1 + the maximum of its dependency levels otherwise; consequently
every dependency level is strictly below its dependent level. -/
theorem level_recurrence (cmds : List Command)
    (hval : (validate_dependencies cmds).2 = [])
    (hkeys : (cmds.map Command.name).Nodup) :
    ∃ levels, computeAllLevels cmds = some levels ∧
      (∀ c ∈ cmds,
        (List.lookup c.name levels).getD 0 =
          if c.depends_on.isEmpty then 0
          else (c.depends_on.map (fun d => (List.lookup d levels).getD 0)).foldl
            Nat.max 0 + 1) ∧
      (∀ c ∈ cmds, ∀ d ∈ c.depends_on,
        (List.lookup d levels).getD 0 < (List.lookup c.name levels).getD 0) := by
  obtain ⟨hnd, hnc⟩ := (validate_nil_iff cmds).mp hval
  obtain ⟨levels, hcomp, hmk, hall, hkeysub, hlen⟩ :=
    computeAllLevels_total cmds hnd hnc hkeys
  have hentry : ∀ c ∈ cmds, ∃ l, List.lookup c.name levels = some l ∧
      EntryOK cmds levels (c.name, l) := by
    intro c hc
    have h2 := hall c.name (List.mem_map_of_mem _ hc)
    obtain ⟨l, hl⟩ := Option.isSome_iff_exists.mp h2
    exact ⟨l, hl, hmk.2 (c.name, l) (lookup_mem_pair levels c.name l hl)⟩
  refine ⟨levels, hcomp, ?_, ?_⟩
  · intro c hc
    obtain ⟨l, hl, cmd, hcmd, h0, h1⟩ := hentry c hc
    have hceq : cmd = c := by
      rw [lookup_self cmds hkeys c hc] at hcmd
      injection hcmd with h
      exact h.symm
    subst hceq
    rw [hl, Option.getD_some]
    cases hde : cmd.depends_on.isEmpty with
    | true =>
      simp only [if_true]
      exact h0 hde
    | false =>
      simp only [Bool.false_eq_true, if_false]
      exact (h1 hde).2
  · intro c hc d hd
    obtain ⟨l, hl, cmd, hcmd, h0, h1⟩ := hentry c hc
    have hceq : cmd = c := by
      rw [lookup_self cmds hkeys c hc] at hcmd
      injection hcmd with h
      exact h.symm
    subst hceq
    have hde : cmd.depends_on.isEmpty = false := by
      cases hcon : cmd.depends_on with
      | nil => rw [hcon] at hd; simp at hd
      | cons a rest => rfl
    obtain ⟨hex, heq⟩ := h1 hde
    obtain ⟨ld, hld⟩ := hex d hd
    have heq2 : l = (cmd.depends_on.map
        (fun x => (List.lookup x levels).getD 0)).foldl Nat.max 0 + 1 := heq
    rw [hl, hld, Option.getD_some, Option.getD_some]
    have hmem : ld ∈ cmd.depends_on.map (fun x => (List.lookup x levels).getD 0) := by
      rw [List.mem_map]
      exact ⟨d, hd, by rw [hld]; rfl⟩
    have hle := le_foldl_max _ ld hmem
    omega

/-- Witness for `level_recurrence` on the two-command chain b → a. -/
theorem level_recurrence_witness :
    ∃ levels,
      computeAllLevels [{ name := "a", command := "x" },
        { name := "b", command := "y", depends_on := ["a"] }] = some levels ∧
      (∀ c ∈ [{ name := "a", command := "x" },
          { name := "b", command := "y", depends_on := ["a"] : Command}],
        (List.lookup c.name levels).getD 0 =
          if c.depends_on.isEmpty then 0
          else (c.depends_on.map (fun d => (List.lookup d levels).getD 0)).foldl
            Nat.max 0 + 1) ∧
      (∀ c ∈ [{ name := "a", command := "x" },
          { name := "b", command := "y", depends_on := ["a"] : Command}],
        ∀ d ∈ c.depends_on,
        (List.lookup d levels).getD 0 < (List.lookup c.name levels).getD 0) :=
  level_recurrence _
    (by simp [validate_dependencies, cycleScan, hasCycle, visitDeps, validateFuel,
      danglingErrors, containsName, lookup])
    (by decide)

/-- Placing a name into a group never changes the number of groups. -/
theorem appendAt_length (n : String) :
    ∀ (i : Nat) (groups : List (List String)),
      (appendAt n i groups).length = groups.length := by
  intro i
  induction i with
  | zero => intro groups; cases groups <;> simp [appendAt]
  | succ j ih =>
    intro groups
    cases groups with
    | nil => simp [appendAt]
    | cons g rest => simp [appendAt, ih]

/-- The grouping loop never changes the number of groups. -/
theorem placeInGroups_length :
    ∀ (items : List (String × Nat)) (groups : List (List String)),
      (placeInGroups groups items).length = groups.length := by
  intro items
  induction items with
  | nil => intro groups; simp [placeInGroups]
  | cons p rest ih =>
    intro groups
    obtain ⟨n, l⟩ := p
    rw [placeInGroups, ih, appendAt_length]

/-- C3 counterexample: for the empty graph `_get_execution_order` returns a
plan containing one (empty) group, not an empty plan. -/
theorem execution_order_empty_counterexample :
    get_execution_order [] = some [[]] ∧
    some [[]] ≠ some ([] : List (List String)) :=
  ⟨rfl, by decide⟩

/-- C3 amended: for the empty graph the plan contains exactly one empty
group (length 1, not 0); for every non-empty validated graph the plan length
equals the maximum level + 1. -/
theorem execution_order_length (cmds : List Command)
    (hval : (validate_dependencies cmds).2 = [])
    (hkeys : (cmds.map Command.name).Nodup) :
    get_execution_order [] = some [[]] ∧
    (cmds ≠ [] →
      ∃ levels groups, computeAllLevels cmds = some levels ∧
        get_execution_order cmds = some groups ∧
        groups.length = (levels.map Prod.snd).foldl Nat.max 0 + 1) := by
  obtain ⟨hnd, hnc⟩ := (validate_nil_iff cmds).mp hval
  obtain ⟨levels, hcomp, hmk, hall, hkeysub, hlen⟩ :=
    computeAllLevels_total cmds hnd hnc hkeys
  refine ⟨rfl, fun hne => ?_⟩
  have hlev : levels.isEmpty = false := by
    cases hcase : levels with
    | nil =>
      exfalso
      rw [hcase] at hlen
      simp at hlen
      exact hne (List.length_eq_zero.mp hlen.symm)
    | cons a rest => rfl
  refine ⟨levels,
    placeInGroups
      (List.replicate ((levels.map Prod.snd).foldl Nat.max 0 + 1) []) levels.reverse,
    hcomp, ?_, ?_⟩
  · unfold get_execution_order
    rw [hcomp]
    simp only [hlev, Bool.false_eq_true, if_false]
  · rw [placeInGroups_length, List.length_replicate]

/-- Witness for `execution_order_length` on the two-command chain b → a. -/
theorem execution_order_length_witness :
    get_execution_order [] = some [[]] ∧
    (([{ name := "a", command := "x" },
        { name := "b", command := "y", depends_on := ["a"] : Command}]) ≠ [] →
      ∃ levels groups,
        computeAllLevels [{ name := "a", command := "x" },
          { name := "b", command := "y", depends_on := ["a"] }] = some levels ∧
        get_execution_order [{ name := "a", command := "x" },
          { name := "b", command := "y", depends_on := ["a"] }] = some groups ∧
        groups.length = (levels.map Prod.snd).foldl Nat.max 0 + 1) :=
  execution_order_length _
    (by simp [validate_dependencies, cycleScan, hasCycle, visitDeps, validateFuel,
      danglingErrors, containsName, lookup])
    (by decide)

/-! ## Theorems about group execution and `run` -/

/-- With abort disabled, the group loop executes every command in order. -/
theorem groupLoop_no_abort (execOf : String → CommandResult) :
    ∀ group flag acc,
      groupLoop execOf false group flag acc = acc ++ group.map execOf := by
  intro group
  induction group with
  | nil => intro flag acc; simp [groupLoop]
  | cons n rest ih =>
    intro flag acc
    simp only [groupLoop, Bool.false_and, Bool.false_eq_true, ite_false]
    rw [ih]
    simp

/-- With abort disabled, a group executes exactly its commands. -/
theorem execute_group_no_abort (execOf : String → CommandResult) (group : List String) :
    execute_group execOf group false =
      ((group.map execOf).all (fun r => r.success), group.map execOf) := by
  unfold execute_group
  rw [groupLoop_no_abort]
  simp

/-- With abort disabled, the level loop executes every group completely. -/
theorem runGroups_no_abort (execOf : String → CommandResult) :
    ∀ groups acc, runGroups execOf false groups acc =
      acc ++ (groups.map (fun g => g.map execOf)).flatten := by
  intro groups
  induction groups with
  | nil => intro acc; simp [runGroups]
  | cons g rest ih =>
    intro acc
    simp only [runGroups, Bool.and_false, Bool.false_eq_true, ite_false]
    rw [ih, execute_group_no_abort]
    simp

/-- Mapping the executor over groups preserves the total result count. -/
theorem map_flatten_length (execOf : String → CommandResult) :
    ∀ groups : List (List String),
      ((groups.map (fun g => g.map execOf)).flatten).length = groups.flatten.length := by
  intro groups
  induction groups with
  | nil => rfl
  | cons g rest ih => simp [ih]

/-- Appending into a group in range grows the total membership by one. -/
theorem appendAt_flatten_length (n : String) :
    ∀ (i : Nat) (groups : List (List String)), i < groups.length →
      ((appendAt n i groups).flatten).length = groups.flatten.length + 1 := by
  intro i
  induction i with
  | zero =>
    intro groups h
    cases groups with
    | nil => simp at h
    | cons g rest => simp [appendAt]; omega
  | succ j ih =>
    intro groups h
    cases groups with
    | nil => simp at h
    | cons g rest =>
      simp only [appendAt, List.flatten_cons, List.length_append]
      rw [ih rest (by simpa using h)]
      omega

/-- Placing all items (each in range) grows the total membership accordingly. -/
theorem placeInGroups_flatten_length :
    ∀ (items : List (String × Nat)) (groups : List (List String)),
      (∀ p ∈ items, p.2 < groups.length) →
      ((placeInGroups groups items).flatten).length =
        groups.flatten.length + items.length := by
  intro items
  induction items with
  | nil => intro groups _; simp [placeInGroups]
  | cons p rest ih =>
    intro groups hin
    obtain ⟨n, l⟩ := p
    rw [placeInGroups]
    rw [ih (appendAt n l groups) ?_]
    · rw [appendAt_flatten_length n l groups (hin (n, l) (List.mem_cons_self _ _))]
      simp only [List.length_cons]
      omega
    · intro q hq
      rw [appendAt_length]
      exact hin q (List.mem_cons_of_mem _ hq)

/-- A list of empty groups has no members. -/
theorem replicate_nil_flatten_length (k : Nat) :
    ((List.replicate k ([] : List String)).flatten).length = 0 := by
  induction k with
  | zero => rfl
  | succ j ih => simp [List.replicate_succ, ih]

/-- C7: when validation reports at least one error, `run` executes no command
at all (its outcome does not depend on the executor) and returns the failure
outcome carrying the complete validation error list. -/
theorem run_validation_failure (cmds : List Command)
    (execOf execOf2 : String → CommandResult) (abort : Bool)
    (hval : (validate_dependencies cmds).1 = false) :
    run cmds execOf abort = RunOutcome.validationFailure (validate_dependencies cmds).2 ∧
    run cmds execOf abort = run cmds execOf2 abort := by
  constructor
  · simp [run, hval]
  · simp [run, hval]

/-- Witness for `run_validation_failure` on a dangling-dependency map, with
two different executors. -/
theorem run_validation_failure_witness :
    run [{ name := "a", command := "x", depends_on := ["ghost"] }]
        (fun _ => ⟨"x", true, 0, 0, "", "", none⟩) true =
      RunOutcome.validationFailure
        (validate_dependencies
          [{ name := "a", command := "x", depends_on := ["ghost"] }]).2 ∧
    run [{ name := "a", command := "x", depends_on := ["ghost"] }]
        (fun _ => ⟨"x", true, 0, 0, "", "", none⟩) true =
      run [{ name := "a", command := "x", depends_on := ["ghost"] }]
        (fun _ => ⟨"x", false, 1, 2, "boom", "", none⟩) true :=
  run_validation_failure _ _ _ true
    (by simp [validate_dependencies, cycleScan, hasCycle, visitDeps, validateFuel,
      danglingErrors, containsName, lookup])

/-- C8: with abort_on_failure disabled, `run` on a validated graph executes
every command of every level (none skipped, no level dropped): the summary
counts executed = total = number of commands, whatever the results. -/
theorem run_no_abort_executes_all (cmds : List Command)
    (execOf : String → CommandResult)
    (hval : (validate_dependencies cmds).2 = [])
    (hkeys : (cmds.map Command.name).Nodup) :
    ∃ s, run cmds execOf false = RunOutcome.finished s ∧
      s.executed = cmds.length ∧ s.total_commands = cmds.length ∧
      s.results.length = cmds.length := by
  obtain ⟨hnd, hnc⟩ := (validate_nil_iff cmds).mp hval
  obtain ⟨levels, hcomp, hmk, hall, hkeysub, hlen⟩ :=
    computeAllLevels_total cmds hnd hnc hkeys
  have hv1 : (validate_dependencies cmds).1 = true := by
    obtain ⟨v, e, hscan, hveq⟩ := validate_eq_result cmds
    rw [hveq] at hval ⊢
    simp only at hval
    subst hval
    rfl
  have horder : get_execution_order cmds =
      some (placeInGroups
        (List.replicate
          ((if levels.isEmpty then 0 else (levels.map Prod.snd).foldl Nat.max 0) + 1)
          [])
        levels.reverse) := by
    unfold get_execution_order
    rw [hcomp]
  have hinrange : ∀ p ∈ levels.reverse,
      p.2 < (List.replicate
        ((if levels.isEmpty then 0 else (levels.map Prod.snd).foldl Nat.max 0) + 1)
        ([] : List String)).length := by
    intro p hp
    rw [List.mem_reverse] at hp
    have hne : levels.isEmpty = false := by
      cases hcase : levels with
      | nil => rw [hcase] at hp; simp at hp
      | cons a r => rfl
    rw [List.length_replicate, hne]
    simp only [Bool.false_eq_true, if_false]
    have := le_foldl_max (levels.map Prod.snd) p.2 (List.mem_map_of_mem _ hp)
    omega
  have hglen : ((placeInGroups
      (List.replicate
        ((if levels.isEmpty then 0 else (levels.map Prod.snd).foldl Nat.max 0) + 1)
        [])
      levels.reverse).flatten).length = cmds.length := by
    rw [placeInGroups_flatten_length levels.reverse _ hinrange,
      replicate_nil_flatten_length, List.length_reverse]
    omega
  have hres : (runGroups execOf false
      (placeInGroups
        (List.replicate
          ((if levels.isEmpty then 0 else (levels.map Prod.snd).foldl Nat.max 0) + 1)
          [])
        levels.reverse) []).length = cmds.length := by
    rw [runGroups_no_abort, List.nil_append, map_flatten_length]
    exact hglen
  simp only [run, hv1, horder, if_true]
  exact ⟨_, rfl, hres, rfl, hres⟩

/-- Witness for `run_no_abort_executes_all` on the two-command chain with a
failing executor: both commands still execute. -/
theorem run_no_abort_executes_all_witness :
    ∃ s, run [{ name := "a", command := "x" },
        { name := "b", command := "y", depends_on := ["a"] }]
        (fun _ => ⟨"x", false, 1, 0, "", "", none⟩) false = RunOutcome.finished s ∧
      s.executed = 2 ∧ s.total_commands = 2 ∧ s.results.length = 2 :=
  run_no_abort_executes_all _ _
    (by simp [validate_dependencies, cycleScan, hasCycle, visitDeps, validateFuel,
      danglingErrors, containsName, lookup])
    (by decide)

/-- C9: in this embedding the validator and the scheduler are pure functions
of the command map (the source methods only read `self.commands`, building
local sets, dicts and lists), so running either twice on the same unmodified
map yields identical results, and neither run alters the map. -/
theorem validate_order_idempotent (cmds : List Command) :
    validate_dependencies cmds = validate_dependencies cmds ∧
    get_execution_order cmds = get_execution_order cmds :=
  ⟨rfl, rfl⟩

end BatchRunner
